import Mathlib

/-!
Verification development for the Airbnb scraping script
`chatgpt_scrape_airbnb.py`.

The script is embedded shallowly:

* The pure pattern-extraction engine (`extract_license_from_text`,
  `parse_host_stats`) is translated as executable functions over
  `List Char`.  Python's `re.search` is modelled by a leftmost scan
  (`scan` / `scanB`) together with per-pattern matchers that reproduce
  the greedy/backtracking behaviour of the concrete regexes used in the
  script.  Word characters (`\b`, `\w`) are modelled over ASCII
  (letters, digits, underscore), and `\s` by the whitespace characters
  relevant to the French-language text the script targets (ASCII
  whitespace plus no-break and narrow no-break spaces).
* The Playwright page is modelled as an oracle structure (`Page`) whose
  fields give the result of each awaited browser call; a call either
  succeeds or raises (`PwError`), with the timeout error distinguished
  because the script catches `PlaywrightTimeoutError` separately.
* The discovery scroll loop is modelled with explicit fuel, an abstract
  `SearchPage` providing the anchors harvested at each pass and the
  document height after each scroll.
* The `asyncio.Semaphore` concurrency limiter is modelled as a labelled
  transition system over the phases of each worker.
-/

namespace Scraper

/-! ## Character classes (ASCII models of the regex classes) -/

/-- `[A-Z]` -/
def isUpperC (c : Char) : Bool := 'A' ≤ c && c ≤ 'Z'

/-- `[a-z]` -/
def isLowerC (c : Char) : Bool := 'a' ≤ c && c ≤ 'z'

/-- `\d` -/
def isDigitC (c : Char) : Bool := '0' ≤ c && c ≤ '9'

/-- `[A-Z0-9]` -/
def isAlnumUC (c : Char) : Bool := isUpperC c || isDigitC c

/-- `\w` (ASCII model: letters, digits, underscore). -/
def isWordC (c : Char) : Bool := isUpperC c || isLowerC c || isDigitC c || c = '_'

/-- `\s` for the text this scraper handles: ASCII whitespace plus the
no-break space U+00A0 and narrow no-break space U+202F used as French
thousands separators. -/
def isSpaceC (c : Char) : Bool :=
  c = ' ' || c = '\t' || c = '\n' || c = '\r' || c = '\u000B' || c = '\u000C' ||
  c = ' ' || c = ' '

/-- ASCII lower-casing, for `re.IGNORECASE` matching. -/
def lowerA (c : Char) : Char :=
  if isUpperC c then Char.ofNat (c.toNat + 32) else c

/-- Case-insensitive character comparison (ASCII). -/
def eqCI (a b : Char) : Bool := lowerA a = lowerA b

/-! ## Generic matching combinators -/

/-- Take exactly `n` characters satisfying `p`; `none` if impossible.
Models a fixed-count regex piece such as `[A-Z]{3}` or `\d{4}`. -/
def takeN (p : Char → Bool) : Nat → List Char → Option (List Char × List Char)
  | 0, cs => some ([], cs)
  | _ + 1, [] => none
  | n + 1, c :: cs =>
      if p c then (takeN p n cs).map (fun pr => (c :: pr.1, pr.2)) else none

/-- Expect a single literal character. -/
def expectChar (c : Char) : List Char → Option (List Char)
  | [] => none
  | d :: r => if d = c then some r else none

/-- `\b` looking backwards: the previous character (if any) is not a
word character.  All our patterns start with a word character, so this
is exactly the word-boundary condition. -/
def boundaryPrev : Option Char → Bool
  | none => true
  | some c => !isWordC c

/-- `\b` looking forwards: the next character (if any) is not a word
character.  All our bounded runs end in a word character, so this is
exactly the word-boundary condition. -/
def noWordAhead : List Char → Bool
  | [] => true
  | c :: _ => !isWordC c

/-- Leftmost scan of a position matcher over the text: `re.search` for
a pattern with no word-boundary prefix.  Matching at the empty suffix is
omitted because every pattern in the script consumes at least one
character. -/
def scan (m : List Char → Option α) : List Char → Option α
  | [] => none
  | c :: cs =>
    match m (c :: cs) with
    | some r => some r
    | none => scan m cs

/-- Leftmost scan for a matcher that also inspects the previous
character (for a leading `\b`). -/
def scanB (m : Option Char → List Char → Option α) : Option Char → List Char → Option α
  | _, [] => none
  | prev, c :: cs =>
    match m prev (c :: cs) with
    | some r => some r
    | none => scanB m (some c) cs

/-- `startsWithCI pat cs`: `cs` begins with `pat` up to ASCII case. -/
def startsWithCI : List Char → List Char → Bool
  | [], _ => true
  | _ :: _, [] => false
  | p :: pt, c :: ct => eqCI p c && startsWithCI pt ct

/-- Greedy bounded run ending at a word boundary: take exactly `n`
characters of class `p`, requiring no word character immediately after
(the trailing `\b` of the pattern). -/
def tryRunEnd (p : Char → Bool) (n : Nat) (cs : List Char) : Option (List Char × List Char) :=
  match takeN p n cs with
  | some (m, r) => if noWordAhead r then some (m, r) else none
  | none => none

/-! ## License-code patterns (`extract_license_from_text`) -/

/-- Matcher at one position for `\b[A-Z]{3}-[A-Z]{3}-[A-Z0-9]{4,6}\b`
(greedy: a run of 6 is preferred to 5, then 4, exactly as the regex
engine backtracks). -/
def matchStructAt (prev : Option Char) (cs : List Char) : Option (List Char) :=
  if boundaryPrev prev then
    match takeN isUpperC 3 cs with
    | none => none
    | some (a, r1) =>
      match expectChar '-' r1 with
      | none => none
      | some r2 =>
        match takeN isUpperC 3 r2 with
        | none => none
        | some (b, r3) =>
          match expectChar '-' r3 with
          | none => none
          | some r4 =>
            match tryRunEnd isAlnumUC 6 r4 with
            | some (c, _) => some (a ++ '-' :: b ++ '-' :: c)
            | none =>
              match tryRunEnd isAlnumUC 5 r4 with
              | some (c, _) => some (a ++ '-' :: b ++ '-' :: c)
              | none =>
                match tryRunEnd isAlnumUC 4 r4 with
                | some (c, _) => some (a ++ '-' :: b ++ '-' :: c)
                | none => none
  else none

/-- Matcher at one position for `\b\d{6,8}\b` (greedy 8, then 7, then 6). -/
def matchDigits68At (prev : Option Char) (cs : List Char) : Option (List Char) :=
  if boundaryPrev prev then
    match tryRunEnd isDigitC 8 cs with
    | some (m, _) => some m
    | none =>
      match tryRunEnd isDigitC 7 cs with
      | some (m, _) => some m
      | none =>
        match tryRunEnd isDigitC 6 cs with
        | some (m, _) => some m
        | none => none
  else none

/-- `extract_license_from_text` from the script: first search for the
structured pattern `\b[A-Z]{3}-[A-Z]{3}-[A-Z0-9]{4,6}\b`, then for the
bare digit pattern `\b\d{6,8}\b`, else the empty string. -/
def extract_license_from_text (text : String) : String :=
  match scanB matchStructAt none text.toList with
  | some m => String.mk m
  | none =>
    match scanB matchDigits68At none text.toList with
    | some m => String.mk m
    | none => ""

/-! ## Host-statistics patterns (`parse_host_stats`) -/

/-- Matcher at one position for `(\d+(?:[.,]\d+)?)\s*sur\s*5`,
returning the capture group.  `\d+` and the optional decimal part are
greedy; no backtracking beyond what the regex performs is needed since
every continuation starts with a non-digit. -/
def matchRatingAt (cs : List Char) : Option (List Char) :=
  match cs.takeWhile isDigitC with
  | [] => none
  | d :: ds =>
    let r1 := cs.dropWhile isDigitC
    let gr :=
      match r1 with
      | c :: t =>
        if c = '.' || c = ',' then
          match t.takeWhile isDigitC with
          | [] => ((d :: ds), r1)
          | d2 :: ds2 => ((d :: ds) ++ c :: d2 :: ds2, t.dropWhile isDigitC)
        else ((d :: ds), r1)
      | [] => ((d :: ds), r1)
    match gr.2.dropWhile isSpaceC with
    | 's' :: 'u' :: 'r' :: r4 =>
      (match r4.dropWhile isSpaceC with
       | '5' :: _ => some gr.1
       | _ => none)
    | _ => none

/-- The character class `[\d\s ]` of the review-count regex. -/
def isNumSpC (c : Char) : Bool := isDigitC c || isSpaceC c

def commentaireL : List Char := "commentaire".toList

/-- `\s+commentaire` (case-insensitively), used after the capture group. -/
def spacesThenCommentaire (cs : List Char) : Bool :=
  match cs.takeWhile isSpaceC with
  | [] => false
  | _ :: _ => startsWithCI commentaireL (cs.dropWhile isSpaceC)

/-- Greedy backtracking for the capture group `(\d[\d\s ]*)`: try the
longest prefix of the digit/space run first, shrinking until
`\s+commentaire` matches the remainder. -/
def backtrackReviews (run rest : List Char) : Nat → Option (List Char)
  | 0 => none
  | k + 1 =>
    if spacesThenCommentaire (run.drop (k + 1) ++ rest) then some (run.take (k + 1))
    else backtrackReviews run rest k

/-- Matcher at one position for `(\d[\d\s ]*)\s+commentaire` with
`re.IGNORECASE`, returning the capture group. -/
def matchReviewsAt (cs : List Char) : Option (List Char) :=
  match cs with
  | [] => none
  | c :: _ =>
    if isDigitC c then
      backtrackReviews (cs.takeWhile isNumSpC) (cs.dropWhile isNumSpC)
        (cs.takeWhile isNumSpC).length
    else none

def depuisL : List Char := "depuis".toList

/-- Numeric value of a digit string. -/
def digitsToNat (ds : List Char) : Nat :=
  ds.foldl (fun n c => 10 * n + (c.toNat - '0'.toNat)) 0

/-- Matcher at one position for `H[oô]te depuis\s+(\d{4})` with
`re.IGNORECASE`, returning the year captured by `(\d{4})`. -/
def matchTenureAt (cs : List Char) : Option Nat :=
  match cs with
  | c1 :: c2 :: c3 :: c4 :: c5 :: rest =>
    if eqCI c1 'h' && (c2 = 'o' || c2 = 'O' || c2 = 'ô' || c2 = 'Ô') &&
        eqCI c3 't' && eqCI c4 'e' && c5 = ' ' && startsWithCI depuisL rest then
      match (rest.drop 6).takeWhile isSpaceC with
      | [] => none
      | _ :: _ =>
        match takeN isDigitC 4 ((rest.drop 6).dropWhile isSpaceC) with
        | some (dgs, _) => some (digitsToNat dgs)
        | none => none
    else none
  | _ => none

/-- `rating.replace(",", ".")` -/
def normComma : List Char → List Char :=
  List.map (fun c => if c = ',' then '.' else c)

structure HostStats where
  host_rating : String
  host_reviews_count : String
  host_years : String
deriving Repr, DecidableEq

/-- `parse_host_stats` from the script.  The current UTC year
(`dt.datetime.utcnow().year`) is passed explicitly.  The three regex
searches are performed on the same text, in the script's order:

* rating: `(\d+(?:[.,]\d+)?)\s*sur\s*5`, group 1 with `,` replaced by `.`;
* reviews: `(\d[\d\s ]*)\s+commentaire` (ignorecase), group 1 with all
  non-digits removed (`re.sub(r"[^\d]", "", ...)`);
* years: `H[oô]te depuis\s+(\d{4})` (ignorecase),
  `str(max(0, current_year - start_year))`; the `int()` conversion of a
  4-digit group never fails, so the `except` branch is dead code. -/
def parse_host_stats (text : String) (currentYear : Int) : HostStats :=
  let cs := text.toList
  let rating :=
    match scan matchRatingAt cs with
    | some g => String.mk (normComma g)
    | none => ""
  let reviews :=
    match scan matchReviewsAt cs with
    | some g => String.mk (g.filter isDigitC)
    | none => ""
  let years :=
    match scan matchTenureAt cs with
    | some y => toString (max 0 (currentYear - (y : Int)))
    | none => ""
  ⟨rating, reviews, years⟩

/-- The rating sub-extraction of `parse_host_stats`, in isolation. -/
def ratingField (text : String) : String :=
  match scan matchRatingAt text.toList with
  | some g => String.mk (normComma g)
  | none => ""

/-- The review-count sub-extraction of `parse_host_stats`, in isolation. -/
def reviewsField (text : String) : String :=
  match scan matchReviewsAt text.toList with
  | some g => String.mk (g.filter isDigitC)
  | none => ""

/-- The tenure sub-extraction of `parse_host_stats`, in isolation. -/
def yearsField (text : String) (currentYear : Int) : String :=
  match scan matchTenureAt text.toList with
  | some y => toString (max 0 (currentYear - (y : Int)))
  | none => ""

example : extract_license_from_text "licence BUS-MAG-42KDF ici" = "BUS-MAG-42KDF" := by decide
example : extract_license_from_text "permis no 1333701 valide" = "1333701" := by decide
example : extract_license_from_text "x 1333701 y BUS-MAG-42KDF" = "BUS-MAG-42KDF" := by decide
example : extract_license_from_text "rien" = "" := by decide
example : parse_host_stats "note : 4,95 sur 5, 1 378 commentaires, Hôte depuis 2015" 2025 =
    ⟨"4.95", "1378", "10"⟩ := by decide
example : parse_host_stats "Hôte depuis 2030" 2025 = ⟨"", "", "0"⟩ := by decide
example : parse_host_stats "" 2025 = ⟨"", "", ""⟩ := by decide

/-! ## URL normalization and deduplication -/

/-- `h.split("?")[0]`: everything before the first `'?'`. -/
def stripQuery (s : String) : String :=
  String.mk (s.toList.takeWhile (fun c => c ≠ '?'))

/-- `pat` is a literal prefix of `cs`. -/
def startsWithL : List Char → List Char → Bool
  | [], _ => true
  | _ :: _, [] => false
  | p :: pt, c :: ct => p = c && startsWithL pt ct

/-- `needle` occurs as a contiguous sublist of the second argument. -/
def hasSub (needle : List Char) : List Char → Bool
  | [] => needle.isEmpty
  | c :: t => startsWithL needle (c :: t) || hasSub needle t

/-- `needle in haystack` (Python substring test). -/
def containsSubstr (needle s : String) : Bool :=
  hasSub needle.toList s.toList

/-- `"/rooms/" in h` -/
def containsRooms (h : String) : Bool := containsSubstr "/rooms/" h

/-- Add an element to an insertion-ordered set (`set.add` /
`dict.fromkeys` key insertion): appended only if not yet present. -/
def insertNew (x : String) (l : List String) : List String :=
  if x ∈ l then l else l ++ [x]

/-- `list(dict.fromkeys(xs))`: deduplicate keeping the first occurrence
of each element, in first-seen order.  Also models the first-seen
deduplication performed by `Array.from(new Set(...))` in the harvesting
JavaScript. -/
def dedupFirst (l : List String) : List String :=
  l.foldl (fun acc x => insertNew x acc) []

/-! ## Search discovery crawler (`collect_listing_urls`) -/

/-- One harvest pass: the JavaScript deduplicates the hrefs first
(`Array.from(new Set(els.map(e => e.href)))`), then the Python loop
keeps those containing `"/rooms/"`, strips the query string and unions
them into `seen`. -/
def harvest (seen : List String) (hrefs : List String) : List String :=
  (dedupFirst hrefs).foldl
    (fun acc h => if containsRooms h then insertNew (stripQuery h) acc else acc) seen

/-- Abstract rendered search page: `passHrefs i` is the href list the
locator `a[href*="/rooms/"]` yields at the `i`-th harvest pass, and
`height n` is `document.body.scrollHeight` after `n` scroll steps. -/
structure SearchPage where
  passHrefs : Nat → List String
  height : Nat → Int

/-- The scroll-and-harvest loop of `collect_listing_urls`, with fuel.

State: `i` is the iteration index (`i` scrolls have happened so far),
`seen` the running set, `last` the height remembered from the previous
iteration (initially `-1`).  Each iteration harvests, stops if the cap
is reached (before any scroll), otherwise scrolls once, reads the new
height, and stops if it equals the previous one.

Returns `(seen, rounds)` where `rounds` counts the scroll-plus-height-
check rounds executed, or `none` if the fuel ran out. -/
def collectAux (pg : SearchPage) (cap : Nat) :
    Nat → Nat → List String → Int → Option (List String × Nat)
  | 0, _, _, _ => none
  | fuel + 1, i, seen, last =>
    let seen' := harvest seen (pg.passHrefs i)
    if cap ≤ seen'.length then some (seen', i)
    else
      let h := pg.height (i + 1)
      if h = last then some (seen', i + 1)
      else collectAux pg cap fuel (i + 1) seen' h

/-- `collect_listing_urls`: run the loop from the initial state and
return `list(seen)[:cap]` together with the number of scroll rounds
performed. -/
def collect_listing_urls (pg : SearchPage) (cap fuel : Nat) :
    Option (List String × Nat) :=
  (collectAux pg cap fuel 0 [] (-1)).map (fun r => (r.1.take cap, r.2))

/-! ## Listing detail extractor (`extract_listing`)

Each awaited Playwright call is modelled by an oracle field of `Page`
that either yields a value or raises.  The script catches
`PlaywrightTimeoutError` separately from other exceptions on `goto`, so
the error type distinguishes the two. -/

inductive PwError
  | timeout
  | other
deriving DecidableEq, Repr

/-- Oracle for one rendered listing page (the page is deterministic:
repeating a call yields the same outcome). -/
structure Page where
  /-- `page.goto(url, wait_until="networkidle", timeout=60000)` -/
  goto : Except PwError Unit
  /-- `page.locator(f'button:has-text("{label}")').count()` — the
  individual `click` calls are each guarded by `try/except` and have no
  observable effect on the record, so only the unguarded `count()`
  calls are modelled. -/
  buttonCount : String → Except PwError Nat
  /-- `page.locator("h1").count()` inside `safe_inner_text` -/
  h1Count : Except PwError Nat
  /-- `page.locator("h1").first.inner_text()` inside `safe_inner_text` -/
  h1Text : Except PwError String
  /-- `page.title()` -/
  pageTitle : Except PwError String
  /-- `page.inner_text("body")` -/
  bodyText : Except PwError String
  /-- `page.locator('section:has-text("Hôte")').count()` -/
  sectionHoteCount : Except PwError Nat
  /-- `page.locator('section:has-text("Votre hôte")').count()` -/
  sectionVotreHoteCount : Except PwError Nat
  /-- `host_section.first.inner_text()` for the selected host section -/
  hostSectionText : Except PwError String
  /-- `host_section.first.locator("h2, h3, span").count()` -/
  hostNameCount : Except PwError Nat
  /-- `host_section.first.locator("h2, h3, span").first.inner_text()` -/
  hostNameText : Except PwError String
  /-- `host_section.first.locator('a[href*="/users/"]').count()` -/
  hostLinkCount : Except PwError Nat
  /-- `host_link.first.get_attribute("href")` (`none` = attribute absent) -/
  hostLinkHref : Except PwError (Option String)
  /-- `page.locator('a[href*="/users/"]').first.get_attribute("href")` -/
  globalLinkHref : Except PwError (Option String)
  /-- `page.locator('a[href*="/users/"]').first.inner_text()` -/
  globalLinkText : Except PwError String

/-- Python's `str.strip()`: remove whitespace from both ends. -/
def pyStrip (s : String) : String :=
  String.mk (((s.toList.dropWhile isSpaceC).reverse.dropWhile isSpaceC).reverse)

/-- `safe_inner_text`: fully guarded; any failure or an empty locator
yields the empty string, otherwise the stripped text of the first
element. -/
def safe_inner_text (count : Except PwError Nat) (text : Except PwError String) : String :=
  match count with
  | .error _ => ""
  | .ok 0 => ""
  | .ok (_ + 1) =>
    match text with
    | .error _ => ""
    | .ok s => pyStrip s

/-- The `labels` list of `click_more_buttons`. -/
def showMoreLabels : List String := ["Lire la suite", "Afficher plus", "En savoir plus"]

/-- The per-label loop body of `click_more_buttons`: the unguarded
`buttons.count()` call can propagate; the clicks themselves are guarded
(`except ...: continue`) and contribute nothing observable. -/
def clickLabels (pg : Page) : List String → Except PwError Unit
  | [] => .ok ()
  | l :: ls =>
    match pg.buttonCount l with
    | .error e => .error e
    | .ok _ => clickLabels pg ls

/-- `click_more_buttons` (the trailing `wait_for_timeout(500)` cannot
fail and is omitted). -/
def click_more_buttons (pg : Page) : Except PwError Unit :=
  clickLabels pg showMoreLabels

/-- One output row, with the script's field order. -/
structure ListingRecord where
  listing_url : String
  listing_title : String
  license_code : String
  host_url : String
  host_name : String
  host_rating : String
  host_years : String
  host_reviews_count : String
  scraped_at : String
deriving DecidableEq, Repr

/-- Decidable equality of call outcomes, for evaluating the extractor
on concrete pages. -/
instance exceptDecEq {ε α : Type} [DecidableEq ε] [DecidableEq α] :
    DecidableEq (Except ε α)
  | .error a, .error b =>
    if h : a = b then .isTrue (by rw [h])
    else .isFalse (by intro hh; cases hh; exact h rfl)
  | .error _, .ok _ => .isFalse (by intro h; cases h)
  | .ok _, .error _ => .isFalse (by intro h; cases h)
  | .ok a, .ok b =>
    if h : a = b then .isTrue (by rw [h])
    else .isFalse (by intro hh; cases hh; exact h rfl)

/-- The `data` dict as initialised at the top of `extract_listing`:
only the URL and the timestamp are non-empty. -/
def initRecord (url ts : String) : ListingRecord :=
  ⟨url, "", "", "", "", "", "", "", ts⟩

/-- `try: ... except Exception: default` around a single call. -/
def fromOk (d : String) : Except PwError String → String
  | .ok s => s
  | .error _ => d

/-- The stats merge `if v and not data[k]: data[k] = v`.  (At the merge
point the three stat fields of `data` are still empty, so this always
takes `v` when non-empty.) -/
def mergeStat (old v : String) : String :=
  if v ≠ "" ∧ old = "" then v else old

/-- `extract_listing` from the script.  `ts` is the
`dt.datetime.utcnow().isoformat()` timestamp taken when `data` is
built, `year` the current UTC year used by `parse_host_stats`.

Control flow is the script's: only `PlaywrightTimeoutError` from
`goto` is caught (returning the near-empty record); any other `goto`
failure and any failure of the unguarded calls (`buttons.count()`,
`page.title()`, the two section `count()`s) propagates. -/
def extract_listing (pg : Page) (url ts : String) (year : Int) :
    Except PwError ListingRecord :=
  match pg.goto with
  | .error .timeout => .ok (initRecord url ts)
  | .error .other => .error .other
  | .ok _ =>
    match click_more_buttons pg with
    | .error e => .error e
    | .ok _ =>
      let t0 := safe_inner_text pg.h1Count pg.h1Text
      match (if t0 = "" then pg.pageTitle else .ok t0) with
      | .error e => .error e
      | .ok title =>
        let body_text := fromOk "" pg.bodyText
        let license := extract_license_from_text body_text
        match pg.sectionHoteCount with
        | .error e => .error e
        | .ok hoteC =>
          match (if hoteC = 0 then pg.sectionVotreHoteCount else pg.sectionHoteCount) with
          | .error e => .error e
          | .ok selC =>
            let sec : String × String × String :=
              if 0 < selC then
                let host_text := fromOk "" pg.hostSectionText
                let nameCand := safe_inner_text pg.hostNameCount pg.hostNameText
                let sName := if nameCand ≠ "" then nameCand else ""
                let sUrl :=
                  match pg.hostLinkCount with
                  | .error _ => ""
                  | .ok 0 => ""
                  | .ok (_ + 1) =>
                    match pg.hostLinkHref with
                    | .error _ => ""
                    | .ok none => ""
                    | .ok (some h) => if h ≠ "" then stripQuery h else ""
                (host_text, sName, sUrl)
              else ("", "", "")
            let host_text := sec.1
            let hostPair : String × String :=
              if sec.2.1 = "" ∨ sec.2.2 = "" then
                match pg.globalLinkHref, pg.globalLinkText with
                | .ok hOpt, .ok t =>
                  let u :=
                    match hOpt with
                    | some h => if h ≠ "" then stripQuery h else sec.2.2
                    | none => sec.2.2
                  let n := if t ≠ "" then pyStrip t else sec.2.1
                  (n, u)
                | _, _ => (sec.2.1, sec.2.2)
              else (sec.2.1, sec.2.2)
            let stats := parse_host_stats (if host_text ≠ "" then host_text else body_text) year
            .ok ⟨url, title, license,
                 hostPair.2, hostPair.1,
                 mergeStat "" stats.host_rating,
                 mergeStat "" stats.host_years,
                 mergeStat "" stats.host_reviews_count,
                 ts⟩

/-- The extraction stage of `scrape_all`: one `worker` per URL, each
appending exactly one row on success; an uncaught exception from a
worker propagates through `asyncio.gather`.  Row order is immaterial
(the scheduler interleaves completions), so the rows are collected in
URL order. -/
def runExtractionStage (pages : String → Page) (urls : List String)
    (ts : String) (year : Int) : Except PwError (List ListingRecord) :=
  match urls with
  | [] => .ok []
  | u :: us =>
    match extract_listing (pages u) u ts year with
    | .error e => .error e
    | .ok r =>
      match runExtractionStage pages us ts year with
      | .error e => .error e
      | .ok rs => .ok (r :: rs)

/-- The oracle outcomes under which `extract_listing` reaches no
unguarded failing call: `goto` does not fail with a non-timeout error,
and the unguarded `count()` / `title()` calls succeed. -/
def NoUnguardedFailure (pg : Page) : Prop :=
  pg.goto ≠ .error .other ∧
  (∀ l ∈ showMoreLabels, ∃ n, pg.buttonCount l = .ok n) ∧
  (∃ t, pg.pageTitle = .ok t) ∧
  (∃ n, pg.sectionHoteCount = .ok n) ∧
  (∃ n, pg.sectionVotreHoteCount = .ok n)

/-! ## Concurrency limiter (`asyncio.Semaphore(MAX_CONCURRENT_PAGES)`)

Each worker runs `async with sem: page = new_page(); try: ...
finally: page.close()`.  Its lifecycle is: wait for a slot, acquire,
open its page, close the page, release the slot.  The cooperative
scheduler may interleave workers arbitrarily; this is modelled as a
transition system over the list of per-worker phases. -/

inductive Phase
  | waiting
  | acquired
  | opened
  | closed
  | done
deriving DecidableEq, Repr

/-- The worker holds a semaphore slot from `acquire` until `release`
(the page is closed in the `finally` block before the `async with`
releases the slot). -/
def holdsSlot : Phase → Bool
  | .acquired => true
  | .opened => true
  | .closed => true
  | _ => false

/-- The worker's page session is open. -/
def isOpenPhase : Phase → Bool
  | .opened => true
  | _ => false

/-- Number of semaphore slots currently held. -/
def holdCount (s : List Phase) : Nat := s.countP holdsSlot

/-- Number of simultaneously open page sessions. -/
def openCount (s : List Phase) : Nat := s.countP isOpenPhase

/-- One scheduler step.  `sem.acquire()` only proceeds when a slot is
free (fewer than `cap` holders); a worker that cannot acquire stays
`waiting`.  Opening happens only after acquiring, and the page is
closed before the slot is released. -/
inductive SemStep (cap : Nat) : List Phase → List Phase → Prop
  | acquire (s1 s2 : List Phase) (h : holdCount (s1 ++ Phase.waiting :: s2) < cap) :
      SemStep cap (s1 ++ Phase.waiting :: s2) (s1 ++ Phase.acquired :: s2)
  | openPage (s1 s2 : List Phase) :
      SemStep cap (s1 ++ Phase.acquired :: s2) (s1 ++ Phase.opened :: s2)
  | closePage (s1 s2 : List Phase) :
      SemStep cap (s1 ++ Phase.opened :: s2) (s1 ++ Phase.closed :: s2)
  | release (s1 s2 : List Phase) :
      SemStep cap (s1 ++ Phase.closed :: s2) (s1 ++ Phase.done :: s2)

/-- States reachable by the extraction stage with `n` workers and
limiter cap `cap`: every worker starts `waiting`. -/
def SemReachable (cap n : Nat) (s : List Phase) : Prop :=
  Relation.ReflTransGen (SemStep cap) (List.replicate n Phase.waiting) s

/-! ## Declarative views of the regex patterns

These describe, independently of the scanner, what it means for a
pattern to occur in the text at a position, and are used to state the
claims about the pattern-extraction engine. -/

/-- The character before position `i` (`none` at the start of the text). -/
def prevAtP (prev : Option Char) (cs : List Char) : Nat → Option Char
  | 0 => prev
  | j + 1 => cs[j]?

def prevAt (cs : List Char) (i : Nat) : Option Char := prevAtP none cs i

/-- A structured licence code: `[A-Z]{3}-[A-Z]{3}-[A-Z0-9]{4,6}`. -/
def StructCode (m : List Char) : Prop :=
  ∃ a b c, m = a ++ '-' :: (b ++ '-' :: c) ∧
    a.length = 3 ∧ b.length = 3 ∧ 4 ≤ c.length ∧ c.length ≤ 6 ∧
    (∀ x ∈ a, isUpperC x = true) ∧ (∀ x ∈ b, isUpperC x = true) ∧
    (∀ x ∈ c, isAlnumUC x = true)

/-- A standalone digit code body: 6 to 8 digits. -/
def DigitCode (m : List Char) : Prop :=
  6 ≤ m.length ∧ m.length ≤ 8 ∧ ∀ x ∈ m, isDigitC x = true

/-- The structured pattern occurs at position `i` of `cs` with match `m`
(word boundaries on both sides). -/
def StructOccAt (cs : List Char) (i : Nat) (m : List Char) : Prop :=
  boundaryPrev (prevAt cs i) = true ∧
  ∃ rest, cs.drop i = m ++ rest ∧ StructCode m ∧ noWordAhead rest = true

/-- The standalone digit pattern occurs at position `i` of `cs`. -/
def DigitOccAt (cs : List Char) (i : Nat) (m : List Char) : Prop :=
  boundaryPrev (prevAt cs i) = true ∧
  ∃ rest, cs.drop i = m ++ rest ∧ DigitCode m ∧ noWordAhead rest = true

def HasStructOcc (cs : List Char) : Prop := ∃ i m, StructOccAt cs i m

def HasDigitOcc (cs : List Char) : Prop := ∃ i m, DigitOccAt cs i m

/-- Shape of the rating capture group: digits, optionally followed by a
`.` or `,` and more digits (`\d+(?:[.,]\d+)?`). -/
def RatingShape (g : List Char) : Prop :=
  ∃ d1 tl, g = d1 ++ tl ∧ d1 ≠ [] ∧ (∀ c ∈ d1, isDigitC c = true) ∧
    (tl = [] ∨ ∃ c d2, tl = c :: d2 ∧ (c = '.' ∨ c = ',') ∧ d2 ≠ [] ∧
      ∀ x ∈ d2, isDigitC x = true)

/-- `(\d+(?:[.,]\d+)?)\s*sur\s*5` matches at the head of `cs`,
capturing `g`. -/
def RatingOcc0 (cs : List Char) (g : List Char) : Prop :=
  ∃ ws1 ws2 rest,
    cs = g ++ ws1 ++ ('s' :: 'u' :: 'r' :: (ws2 ++ '5' :: rest)) ∧
    RatingShape g ∧ (∀ c ∈ ws1, isSpaceC c = true) ∧ (∀ c ∈ ws2, isSpaceC c = true)

def RatingOccAt (cs : List Char) (i : Nat) (g : List Char) : Prop :=
  RatingOcc0 (cs.drop i) g

/-- `(\d[\d\s ]*)\s+commentaire` (ignorecase) matches at the head of
`cs`, capturing `g`. -/
def ReviewsOcc0 (cs : List Char) (g : List Char) : Prop :=
  ∃ sp rest,
    cs = g ++ sp ++ rest ∧
    (∃ d gt, g = d :: gt ∧ isDigitC d = true) ∧
    (∀ c ∈ g, isNumSpC c = true) ∧
    sp ≠ [] ∧ (∀ c ∈ sp, isSpaceC c = true) ∧
    startsWithCI commentaireL rest = true

def ReviewsOccAt (cs : List Char) (i : Nat) (g : List Char) : Prop :=
  ReviewsOcc0 (cs.drop i) g

/-- `H[oô]te depuis\s+(\d{4})` (ignorecase) matches at the head of `cs`
with captured year value `y`. -/
def TenureOcc0 (cs : List Char) (y : Nat) : Prop :=
  ∃ c1 c2 c3 c4 dpu sp ds rest,
    cs = c1 :: c2 :: c3 :: c4 :: ' ' :: (dpu ++ (sp ++ (ds ++ rest))) ∧
    eqCI c1 'h' = true ∧ (c2 = 'o' ∨ c2 = 'O' ∨ c2 = 'ô' ∨ c2 = 'Ô') ∧
    eqCI c3 't' = true ∧ eqCI c4 'e' = true ∧
    dpu.length = 6 ∧ startsWithCI depuisL dpu = true ∧
    sp ≠ [] ∧ (∀ c ∈ sp, isSpaceC c = true) ∧
    ds.length = 4 ∧ (∀ c ∈ ds, isDigitC c = true) ∧ digitsToNat ds = y

def TenureOccAt (cs : List Char) (i : Nat) (y : Nat) : Prop :=
  TenureOcc0 (cs.drop i) y

/-! ## Components of a successful extraction

Pure views of the record produced by `extract_listing` when nothing
propagates, used to state claims about individual fields. -/

/-- The host-section count after the label fallback
(`Hôte`, then `Votre hôte` when the former finds no section). -/
def sectionSel (pg : Page) : Except PwError Nat :=
  match pg.sectionHoteCount with
  | .error e => .error e
  | .ok c => if c = 0 then pg.sectionVotreHoteCount else pg.sectionHoteCount

/-- The `(host_text, host_name, host_url)` values produced by the
section-scoped extraction (steps 5–6); all empty when no host section
is found or on failure. -/
def secTriple (pg : Page) : String × String × String :=
  match sectionSel pg with
  | .error _ => ("", "", "")
  | .ok selC =>
    if 0 < selC then
      let host_text := fromOk "" pg.hostSectionText
      let nameCand := safe_inner_text pg.hostNameCount pg.hostNameText
      let sName := if nameCand ≠ "" then nameCand else ""
      let sUrl :=
        match pg.hostLinkCount with
        | .error _ => ""
        | .ok 0 => ""
        | .ok (_ + 1) =>
          match pg.hostLinkHref with
          | .error _ => ""
          | .ok none => ""
          | .ok (some h) => if h ≠ "" then stripQuery h else ""
      (host_text, sName, sUrl)
    else ("", "", "")

/-- The `(host_name, host_url)` pair after the whole-page fallback. -/
def hostPairOf (pg : Page) : String × String :=
  let sec := secTriple pg
  if sec.2.1 = "" ∨ sec.2.2 = "" then
    match pg.globalLinkHref, pg.globalLinkText with
    | .ok hOpt, .ok t =>
      let u :=
        match hOpt with
        | some h => if h ≠ "" then stripQuery h else sec.2.2
        | none => sec.2.2
      let n := if t ≠ "" then pyStrip t else sec.2.1
      (n, u)
    | _, _ => (sec.2.1, sec.2.2)
  else (sec.2.1, sec.2.2)

/-- The title value (`h1` text, else `page.title()`). -/
def titleValOf (pg : Page) : String :=
  let t0 := safe_inner_text pg.h1Count pg.h1Text
  if t0 = "" then fromOk "" pg.pageTitle else t0

/-- The host statistics of the record: `parse_host_stats` over the host
section text when non-empty, else over the whole-page text. -/
def statsOf (pg : Page) (year : Int) : HostStats :=
  parse_host_stats
    (if (secTriple pg).1 ≠ "" then (secTriple pg).1 else fromOk "" pg.bodyText) year

/-- The record produced by a fully successful pass of `extract_listing`. -/
def recordOf (pg : Page) (url ts : String) (year : Int) : ListingRecord :=
  ⟨url, titleValOf pg,
   extract_license_from_text (fromOk "" pg.bodyText),
   (hostPairOf pg).2, (hostPairOf pg).1,
   mergeStat "" (statsOf pg year).host_rating,
   mergeStat "" (statsOf pg year).host_years,
   mergeStat "" (statsOf pg year).host_reviews_count,
   ts⟩

/-! ## Concrete fixtures for witnesses and counterexamples -/

/-- A page whose navigation times out; every other call fails, showing
that nothing after the timeout is consulted. -/
def pgTimeout : Page :=
  ⟨.error .timeout, fun _ => .error .other, .error .other, .error .other,
   .error .other, .error .other, .error .other, .error .other, .error .other,
   .error .other, .error .other, .error .other, .error .other, .error .other,
   .error .other⟩

/-- A page whose navigation fails with a non-timeout error. -/
def pgGotoOther : Page :=
  ⟨.error .other, fun _ => .ok 0, .ok 1, .ok "Titre", .ok "Titre",
   .ok "corps", .ok 1, .ok 0, .ok "Hôte : Alice", .ok 1, .ok "Alice",
   .ok 1, .ok (some "https://a/users/1?x"), .ok (some "https://a/users/1?x"),
   .ok "Alice"⟩

/-- A fully successful page: host section present, with name and link. -/
def pgOk : Page :=
  ⟨.ok (), fun _ => .ok 0, .ok 1, .ok " Joli studio ", .ok "Titre",
   .ok "licence BUS-MAG-42KDF", .ok 1, .ok 0,
   .ok "Votre hôte Alice. 4,95 sur 5. 1 378 commentaires. Hôte depuis 2015",
   .ok 1, .ok "Alice", .ok 1, .ok (some "https://a/users/1?x"),
   .ok (some "https://a/users/2?y"), .ok "Bob"⟩

/-- A page where the host section yields a link but no name: the
whole-page fallback then fires and rewrites both fields. -/
def pgOverwrite : Page :=
  ⟨.ok (), fun _ => .ok 0, .ok 1, .ok "Studio", .ok "Titre",
   .ok "", .ok 1, .ok 0, .ok "Hôte",
   .ok 0, .ok "", .ok 1, .ok (some "https://a/users/1?x"),
   .ok (some "https://a/users/2?y"), .ok "Bob"⟩

/-- A page whose host section is located only through the secondary
`Votre hôte` label (`section:has-text("Hôte")` finds nothing); a rating
pattern also sits in the body text, where it must be ignored. -/
def pgVotre : Page :=
  ⟨.ok (), fun _ => .ok 0, .ok 1, .ok "Studio", .ok "Titre",
   .ok "8,1 sur 5", .ok 0, .ok 1,
   .ok "Votre hôte. 4,5 sur 5", .ok 1, .ok "Alice", .ok 1,
   .ok (some "https://a/users/1"), .ok (some "https://a/users/1"), .ok "Alice"⟩

/-- A page with an absent host section and the stats only in the body. -/
def pgNoSection : Page :=
  ⟨.ok (), fun _ => .ok 0, .ok 1, .ok "Studio", .ok "Titre",
   .ok "4,5 sur 5 et 12 commentaires", .ok 0, .ok 0, .error .other,
   .error .other, .error .other, .error .other, .error .other,
   .error .other, .error .other⟩

/-- Running set of discovered URLs after harvest passes `0..i`. -/
def seenUpTo (pg : SearchPage) : Nat → List String
  | 0 => harvest [] (pg.passHrefs 0)
  | i + 1 => harvest (seenUpTo pg i) (pg.passHrefs (i + 1))

/-- A search page whose first pass already yields three listings. -/
def spFirstPass : SearchPage :=
  ⟨fun _ => ["https://a/rooms/1?x", "https://a/rooms/2?y", "https://a/rooms/3"],
   fun _ => 10⟩

/-- A search page with one listing whose height grows once and then
stabilises: `height 1 = 10`, `height n = 20` for `n ≥ 2`. -/
def spConverge : SearchPage :=
  ⟨fun _ => ["https://a/rooms/1"], fun n => if 2 ≤ n then 20 else 10 * n⟩

/-! # Theorems -/

/-! ## Deduplication and normalization lemmas -/

theorem mem_insertNew {a x : String} {l : List String} :
    a ∈ insertNew x l ↔ a ∈ l ∨ a = x := by
  by_cases hx : x ∈ l
  · simp only [insertNew, if_pos hx]
    exact ⟨Or.inl, fun h => h.elim id (fun he => he ▸ hx)⟩
  · simp [insertNew, hx]

theorem nodup_insertNew {x : String} {l : List String} (h : l.Nodup) :
    (insertNew x l).Nodup := by
  by_cases hx : x ∈ l
  · simpa [insertNew, hx] using h
  · simp [insertNew, hx, List.nodup_append, h]

theorem dedupFirst_append_singleton (l : List String) (x : String) :
    dedupFirst (l ++ [x]) = insertNew x (dedupFirst l) := by
  simp [dedupFirst, List.foldl_append]

theorem mem_dedupFirst {a : String} {l : List String} :
    a ∈ dedupFirst l ↔ a ∈ l := by
  induction l using List.reverseRecOn with
  | nil => simp [dedupFirst]
  | append_singleton l x ih =>
    rw [dedupFirst_append_singleton]
    simp [mem_insertNew, ih, or_comm]

theorem nodup_dedupFirst (l : List String) : (dedupFirst l).Nodup := by
  induction l using List.reverseRecOn with
  | nil => simp [dedupFirst]
  | append_singleton l x ih =>
    rw [dedupFirst_append_singleton]
    exact nodup_insertNew ih

theorem sublist_dedupFirst (l : List String) : (dedupFirst l).Sublist l := by
  induction l using List.reverseRecOn with
  | nil => simp [dedupFirst]
  | append_singleton l x ih =>
    rw [dedupFirst_append_singleton]
    by_cases hx : x ∈ dedupFirst l
    · exact (List.Sublist.trans (by simpa [insertNew, hx] using ih)
        (List.sublist_append_left l [x]))
    · simpa [insertNew, hx] using ih.append_right [x]

theorem dedupFirst_eq_reverse_dedup_reverse (l : List String) :
    dedupFirst l = (l.reverse.dedup).reverse := by
  induction l using List.reverseRecOn with
  | nil => rfl
  | append_singleton l x ih =>
    rw [dedupFirst_append_singleton, show (l ++ [x]).reverse = x :: l.reverse by simp]
    by_cases hx : x ∈ l
    · have hxr : x ∈ l.reverse := by simpa using hx
      have hxd : x ∈ dedupFirst l := mem_dedupFirst.mpr hx
      rw [List.dedup_cons_of_mem hxr, ← ih]
      simp [insertNew, hxd]
    · have hxr : x ∉ l.reverse := by simpa using hx
      have hxd : x ∉ dedupFirst l := fun h => hx (mem_dedupFirst.mp h)
      rw [List.dedup_cons_of_not_mem hxr,
        show (x :: l.reverse.dedup).reverse = l.reverse.dedup.reverse ++ [x] by simp, ← ih]
      simp [insertNew, hxd]

theorem stripQuery_append_query (base q : String) (hb : '?' ∉ base.toList) :
    stripQuery (base ++ "?" ++ q) = base := by
  have hlist : (base ++ "?" ++ q).toList = base.toList ++ '?' :: q.toList := by
    show (base ++ "?" ++ q).data = base.data ++ '?' :: q.data
    simp [String.data_append]
  have hall : ∀ c ∈ base.toList, (decide (c ≠ '?')) = true := by
    intro c hc
    simp only [decide_eq_true_eq]
    exact fun he => hb (he ▸ hc)
  unfold stripQuery
  rw [hlist, List.takeWhile_append_of_pos hall]
  simp [String.toList]

/-- C9: stripping the query string identifies two raw hrefs that differ
only in their query parameters (they collapse to a single element of
the discovery set), and the orchestrator's `list(dict.fromkeys(...))`
deduplication keeps the first occurrence of each URL in first-seen
order (it is a duplicate-free sublist with the same members, equal to
deduplication-keeping-last applied from the right). -/
theorem normalization_and_dedup_spec (base q1 q2 : String) (xs : List String)
    (hb : '?' ∉ base.toList)
    (h1 : containsRooms (base ++ "?" ++ q1) = true)
    (h2 : containsRooms (base ++ "?" ++ q2) = true) :
    stripQuery (base ++ "?" ++ q1) = stripQuery (base ++ "?" ++ q2) ∧
    stripQuery (base ++ "?" ++ q1) = base ∧
    harvest [] [base ++ "?" ++ q1, base ++ "?" ++ q2] = [base] ∧
    (dedupFirst xs).Nodup ∧
    (dedupFirst xs).Sublist xs ∧
    (∀ a, a ∈ dedupFirst xs ↔ a ∈ xs) ∧
    dedupFirst xs = (xs.reverse.dedup).reverse := by
  have e1 := stripQuery_append_query base q1 hb
  have e2 := stripQuery_append_query base q2 hb
  refine ⟨e1.trans e2.symm, e1, ?_, nodup_dedupFirst xs, sublist_dedupFirst xs,
    fun a => mem_dedupFirst, dedupFirst_eq_reverse_dedup_reverse xs⟩
  by_cases heq : base ++ "?" ++ q1 = base ++ "?" ++ q2
  · simp [harvest, dedupFirst, insertNew, heq, h2, e2, List.foldl]
  · have hne : ¬(base ++ "?" ++ q2 = base ++ "?" ++ q1) := fun h => heq h.symm
    simp [harvest, dedupFirst, insertNew, hne, h1, h2, e1, e2, List.foldl]

theorem normalization_and_dedup_spec_witness :
    stripQuery ("https://a/rooms/123" ++ "?" ++ "foo=bar") =
      stripQuery ("https://a/rooms/123" ++ "?" ++ "guests=2") ∧
    stripQuery ("https://a/rooms/123" ++ "?" ++ "foo=bar") = "https://a/rooms/123" :=
  ⟨(normalization_and_dedup_spec "https://a/rooms/123" "foo=bar" "guests=2" ["a"]
      (by decide) (by decide) (by decide)).1,
   (normalization_and_dedup_spec "https://a/rooms/123" "foo=bar" "guests=2" ["a"]
      (by decide) (by decide) (by decide)).2.1⟩

/-! ## Timeout behaviour of the extractor -/

/-- C6: when navigation times out, the extractor returns exactly the
initial record — the given URL and the fresh timestamp with every other
field empty — regardless of every other page oracle (so no further
extraction influences the result), and the URL is preserved. -/
theorem extract_listing_timeout_record (pg : Page) (url ts : String) (year : Int)
    (h : pg.goto = Except.error PwError.timeout) :
    extract_listing pg url ts year = Except.ok (initRecord url ts) ∧
    (initRecord url ts).listing_url = url ∧
    (initRecord url ts).scraped_at = ts ∧
    (initRecord url ts).listing_title = "" ∧
    (initRecord url ts).license_code = "" ∧
    (initRecord url ts).host_url = "" ∧
    (initRecord url ts).host_name = "" ∧
    (initRecord url ts).host_rating = "" ∧
    (initRecord url ts).host_years = "" ∧
    (initRecord url ts).host_reviews_count = "" := by
  refine ⟨?_, rfl, rfl, rfl, rfl, rfl, rfl, rfl, rfl, rfl⟩
  unfold extract_listing
  rw [h]

theorem extract_listing_timeout_record_witness :
    extract_listing pgTimeout "https://a/rooms/1" "2025-10-12T00:00:00" 2025 =
      Except.ok (initRecord "https://a/rooms/1" "2025-10-12T00:00:00") :=
  (extract_listing_timeout_record pgTimeout "https://a/rooms/1"
    "2025-10-12T00:00:00" 2025 rfl).1

/-! ## Concurrency limiter bound -/

theorem semStep_hold_le {cap : Nat} {s t : List Phase} (h : SemStep cap s t)
    (hs : holdCount s ≤ cap) : holdCount t ≤ cap := by
  cases h with
  | acquire s1 s2 hlt =>
    simp [holdCount, List.countP_append, List.countP_cons, holdsSlot] at hlt ⊢
    omega
  | openPage s1 s2 =>
    simp [holdCount, List.countP_append, List.countP_cons, holdsSlot] at hs ⊢
    omega
  | closePage s1 s2 =>
    simp [holdCount, List.countP_append, List.countP_cons, holdsSlot] at hs ⊢
    omega
  | release s1 s2 =>
    simp [holdCount, List.countP_append, List.countP_cons, holdsSlot] at hs ⊢
    omega

/-- C8: in every state the extraction stage can reach, the number of
simultaneously open listing-page sessions is at most the limiter cap:
a worker acquires a slot only when fewer than `cap` are held, opens its
page only while holding a slot, and closes it before releasing. -/
theorem semaphore_open_sessions_le_cap (cap n : Nat) (s : List Phase)
    (h : SemReachable cap n s) : openCount s ≤ cap := by
  have hold : holdCount s ≤ cap := by
    induction h with
    | refl => simp [holdCount, List.countP_replicate, holdsSlot]
    | tail _ hstep ih => exact semStep_hold_le hstep ih
  refine le_trans ?_ hold
  exact List.countP_mono_left (by intro x _ hx; cases x <;> simp_all [isOpenPhase, holdsSlot])

theorem semaphore_open_sessions_le_cap_witness :
    openCount [Phase.opened, Phase.waiting] ≤ 1 := by
  apply semaphore_open_sessions_le_cap 1 2
  have h1 : SemStep 1 [Phase.waiting, Phase.waiting] [Phase.acquired, Phase.waiting] :=
    SemStep.acquire [] [Phase.waiting] (by decide)
  have h2 : SemStep 1 [Phase.acquired, Phase.waiting] [Phase.opened, Phase.waiting] :=
    SemStep.openPage [] [Phase.waiting]
  exact Relation.ReflTransGen.head h1 (Relation.ReflTransGen.head h2 Relation.ReflTransGen.refl)

/-! ## Discovery crawler: cap and convergence -/

theorem noQ_stripQuery (h : String) : '?' ∉ (stripQuery h).toList := by
  intro hmem
  have := List.mem_takeWhile_imp hmem
  simp at this

theorem mem_all_insertNew {P : String → Prop} {x : String} {l : List String}
    (hx : P x) (hl : ∀ u ∈ l, P u) : ∀ u ∈ insertNew x l, P u := by
  intro u hu
  rcases mem_insertNew.mp hu with h | h
  · exact hl u h
  · exact h ▸ hx

theorem harvestFold_nodup (l : List String) :
    ∀ seen : List String, seen.Nodup →
      (List.foldl (fun acc h => if containsRooms h then insertNew (stripQuery h) acc else acc)
        seen l).Nodup := by
  induction l with
  | nil => intro seen h; simpa using h
  | cons a t ih =>
    intro seen h
    rw [List.foldl_cons]
    apply ih
    by_cases hc : containsRooms a
    · simpa [hc] using nodup_insertNew h
    · simpa [hc] using h

theorem harvestFold_noQ (l : List String) :
    ∀ seen : List String, (∀ u ∈ seen, '?' ∉ u.toList) →
      ∀ u ∈ (List.foldl (fun acc h => if containsRooms h then insertNew (stripQuery h) acc else acc)
        seen l), '?' ∉ u.toList := by
  induction l with
  | nil => intro seen h; simpa using h
  | cons a t ih =>
    intro seen h
    rw [List.foldl_cons]
    apply ih
    by_cases hc : containsRooms a
    · simpa [hc] using mem_all_insertNew (noQ_stripQuery a) h
    · simpa [hc] using h

theorem harvest_nodup {seen : List String} (hrefs : List String) (h : seen.Nodup) :
    (harvest seen hrefs).Nodup :=
  harvestFold_nodup (dedupFirst hrefs) seen h

theorem harvest_noQ {seen : List String} (hrefs : List String)
    (h : ∀ u ∈ seen, '?' ∉ u.toList) : ∀ u ∈ harvest seen hrefs, '?' ∉ u.toList :=
  harvestFold_noQ (dedupFirst hrefs) seen h

theorem collectAux_props (pg : SearchPage) (cap : Nat) :
    ∀ (fuel i : Nat) (seen : List String) (last : Int) (res : List String × Nat),
      seen.Nodup → (∀ u ∈ seen, '?' ∉ u.toList) →
      collectAux pg cap fuel i seen last = some res →
      res.1.Nodup ∧ ∀ u ∈ res.1, '?' ∉ u.toList := by
  intro fuel
  induction fuel with
  | zero => intro i seen last res _ _ h; simp [collectAux] at h
  | succ f ih =>
    intro i seen last res hn hq h
    simp only [collectAux] at h
    by_cases hcap : cap ≤ (harvest seen (pg.passHrefs i)).length
    · rw [if_pos hcap] at h
      cases h
      exact ⟨harvest_nodup _ hn, harvest_noQ _ hq⟩
    · rw [if_neg hcap] at h
      by_cases hh : pg.height (i + 1) = last
      · rw [if_pos hh] at h
        cases h
        exact ⟨harvest_nodup _ hn, harvest_noQ _ hq⟩
      · rw [if_neg hh] at h
        exact ih (i + 1) _ _ res (harvest_nodup _ hn) (harvest_noQ _ hq) h

/-- C4: the crawler returns at most `cap` distinct, query-stripped
URLs; and when the first harvest pass alone already yields at least
`cap` distinct normalized URLs, it returns exactly `cap` of them with
zero scroll/height-check rounds (the cap check precedes the first
scroll). -/
theorem discovery_cap_spec (pg : SearchPage) (cap fuel : Nat) :
    (∀ urls rounds, collect_listing_urls pg cap fuel = some (urls, rounds) →
      urls.length ≤ cap ∧ urls.Nodup ∧ ∀ u ∈ urls, '?' ∉ u.toList) ∧
    (cap ≤ (harvest [] (pg.passHrefs 0)).length → 1 ≤ fuel →
      collect_listing_urls pg cap fuel = some ((harvest [] (pg.passHrefs 0)).take cap, 0) ∧
      ((harvest [] (pg.passHrefs 0)).take cap).length = cap ∧
      ((harvest [] (pg.passHrefs 0)).take cap).Nodup) := by
  constructor
  · intro urls rounds h
    unfold collect_listing_urls at h
    cases hc : collectAux pg cap fuel 0 [] (-1) with
    | none => rw [hc] at h; simp at h
    | some v =>
      rw [hc] at h
      simp only [Option.map_some'] at h
      obtain ⟨seen, r⟩ := v
      obtain ⟨hn, hq⟩ := collectAux_props pg cap fuel 0 [] (-1) (seen, r)
        (by simp) (by simp) hc
      have hurls : urls = seen.take cap := by
        have := congrArg Prod.fst (Option.some.inj h)
        exact this.symm
      subst hurls
      refine ⟨?_, hn.sublist (List.take_sublist cap seen), ?_⟩
      · exact List.length_take_le cap seen
      · intro u hu
        exact hq u ((List.take_sublist cap seen).subset hu)
  · intro hcap hfuel
    cases fuel with
    | zero => omega
    | succ f =>
      have h1 : collectAux pg cap (f + 1) 0 [] (-1) =
          some (harvest [] (pg.passHrefs 0), 0) := by
        simp only [collectAux]
        rw [if_pos hcap]
      refine ⟨?_, ?_, (harvest_nodup _ (by simp)).sublist (List.take_sublist _ _)⟩
      · simp [collect_listing_urls, h1]
      · rw [List.length_take]
        omega

theorem discovery_cap_spec_witness :
    collect_listing_urls spFirstPass 2 5 =
      some ((harvest [] (spFirstPass.passHrefs 0)).take 2, 0) ∧
    ((harvest [] (spFirstPass.passHrefs 0)).take 2).length = 2 := by
  have h := (discovery_cap_spec spFirstPass 2 5).2 (by decide) (by decide)
  exact ⟨h.1, h.2.1⟩

theorem collectAux_run (pg : SearchPage) (cap N : Nat)
    (hcap : ∀ i, i ≤ N → (seenUpTo pg i).length < cap)
    (hch : ∀ i, i < N → 1 ≤ i → pg.height (i + 1) ≠ pg.height i)
    (hstab : pg.height (N + 1) = pg.height N) :
    ∀ (k j fuel : Nat), j + 1 + k = N → k + 1 ≤ fuel →
      collectAux pg cap fuel (j + 1) (seenUpTo pg j) (pg.height (j + 1)) =
        some (seenUpTo pg N, N + 1) := by
  intro k
  induction k with
  | zero =>
    intro j fuel hj hf
    cases fuel with
    | zero => omega
    | succ f =>
      have hN : j + 1 = N := by omega
      simp only [collectAux]
      have hseen : harvest (seenUpTo pg j) (pg.passHrefs (j + 1)) = seenUpTo pg (j + 1) := rfl
      rw [hseen, hN]
      have hlt : ¬ cap ≤ (seenUpTo pg N).length := by
        have := hcap N (le_refl N)
        omega
      rw [if_neg hlt, if_pos hstab]
  | succ k ih =>
    intro j fuel hj hf
    cases fuel with
    | zero => omega
    | succ f =>
      simp only [collectAux]
      have hseen : harvest (seenUpTo pg j) (pg.passHrefs (j + 1)) = seenUpTo pg (j + 1) := rfl
      rw [hseen]
      have hlt : ¬ cap ≤ (seenUpTo pg (j + 1)).length := by
        have := hcap (j + 1) (by omega)
        omega
      rw [if_neg hlt, if_neg (hch (j + 1) (by omega) (by omega))]
      exact ih (j + 1) f (by omega) (by omega)

/-- C5: on a page whose scroll height stops changing after `N ≥ 1`
scrolls while fewer than the cap have been discovered, the loop
terminates exactly at the `(N+1)`-th height check (and any fuel of at
least `N+1` iterations suffices — the loop needs no iteration
ceiling). -/
theorem discovery_convergence_spec (pg : SearchPage) (cap N fuel : Nat)
    (hN : 1 ≤ N) (hfuel : N + 1 ≤ fuel)
    (hpos : 0 ≤ pg.height 1)
    (hstab : pg.height (N + 1) = pg.height N)
    (hch : ∀ i, i < N → 1 ≤ i → pg.height (i + 1) ≠ pg.height i)
    (hcap : ∀ i, i ≤ N → (seenUpTo pg i).length < cap) :
    collect_listing_urls pg cap fuel = some ((seenUpTo pg N).take cap, N + 1) := by
  cases fuel with
  | zero => omega
  | succ f =>
    have h0 : collectAux pg cap (f + 1) 0 [] (-1) = some (seenUpTo pg N, N + 1) := by
      simp only [collectAux]
      have hseen : harvest [] (pg.passHrefs 0) = seenUpTo pg 0 := rfl
      rw [hseen]
      have hlt : ¬ cap ≤ (seenUpTo pg 0).length := by
        have := hcap 0 (by omega)
        omega
      have hne1 : ¬ pg.height (0 + 1) = (-1 : Int) := by
        intro h
        rw [show (0 + 1 : Nat) = 1 by rfl] at h
        rw [h] at hpos
        omega
      rw [if_neg hlt, if_neg hne1]
      exact collectAux_run pg cap N hcap hch hstab (N - 1) 0 f (by omega) (by omega)
    simp [collect_listing_urls, h0]

theorem discovery_convergence_spec_witness :
    collect_listing_urls spConverge 5 4 = some ((seenUpTo spConverge 2).take 5, 3) :=
  discovery_convergence_spec spConverge 5 2 4 (by decide) (by decide) (by decide)
    (by decide) (by decide) (by decide)

/-! ## Leftmost-scan characterization (the `re.search` model) -/

theorem scan_eq_some_iff {α : Type} (m : List Char → Option α) (hnil : m [] = none)
    (cs : List Char) (r : α) :
    scan m cs = some r ↔
      ∃ i, m (cs.drop i) = some r ∧ ∀ j, j < i → m (cs.drop j) = none := by
  induction cs with
  | nil =>
    constructor
    · intro h; simp [scan] at h
    · rintro ⟨i, hi, -⟩
      rw [List.drop_nil, hnil] at hi
      cases hi
  | cons c t ih =>
    rw [scan]
    cases hm : m (c :: t) with
    | some x =>
      dsimp only
      constructor
      · intro h
        exact ⟨0, by rw [List.drop_zero, hm]; exact h,
          fun j hj => absurd hj (Nat.not_lt_zero j)⟩
      · rintro ⟨i, hi, hj⟩
        cases i with
        | zero => rw [List.drop_zero, hm] at hi; exact hi
        | succ k =>
          have h0 := hj 0 (Nat.succ_pos k)
          rw [List.drop_zero, hm] at h0
          cases h0
    | none =>
      dsimp only
      rw [ih]
      constructor
      · rintro ⟨i, hi, hj⟩
        refine ⟨i + 1, by simpa using hi, ?_⟩
        intro j hjlt
        cases j with
        | zero => simpa using hm
        | succ k => simpa using hj k (by omega)
      · rintro ⟨i, hi, hj⟩
        cases i with
        | zero => rw [List.drop_zero, hm] at hi; cases hi
        | succ k =>
          exact ⟨k, by simpa using hi, fun j hjk => by simpa using hj (j + 1) (by omega)⟩

theorem scan_eq_none_iff {α : Type} (m : List Char → Option α) (hnil : m [] = none)
    (cs : List Char) :
    scan m cs = none ↔ ∀ i, m (cs.drop i) = none := by
  induction cs with
  | nil => simp [scan, hnil]
  | cons c t ih =>
    rw [scan]
    cases hm : m (c :: t) with
    | some x =>
      dsimp only
      constructor
      · intro h; cases h
      · intro h
        have h0 := h 0
        rw [List.drop_zero, hm] at h0
        cases h0
    | none =>
      dsimp only
      rw [ih]
      constructor
      · intro h j
        cases j with
        | zero => rw [List.drop_zero]; exact hm
        | succ k => simpa using h k
      · intro h i
        simpa using h (i + 1)

theorem prevAtP_shift (prev : Option Char) (c : Char) (t : List Char) (i : Nat) :
    prevAtP (some c) t i = prevAtP prev (c :: t) (i + 1) := by
  cases i with
  | zero => simp [prevAtP]
  | succ k => simp [prevAtP]

theorem scanB_eq_some_iff {α : Type} (m : Option Char → List Char → Option α)
    (hnil : ∀ p, m p [] = none) :
    ∀ (cs : List Char) (prev : Option Char) (r : α),
      scanB m prev cs = some r ↔
        ∃ i, m (prevAtP prev cs i) (cs.drop i) = some r ∧
          ∀ j, j < i → m (prevAtP prev cs j) (cs.drop j) = none := by
  intro cs
  induction cs with
  | nil =>
    intro prev r
    constructor
    · intro h; simp [scanB] at h
    · rintro ⟨i, hi, -⟩
      rw [List.drop_nil, hnil] at hi
      cases hi
  | cons c t ih =>
    intro prev r
    rw [scanB]
    cases hm : m prev (c :: t) with
    | some x =>
      dsimp only
      constructor
      · intro h
        exact ⟨0, by rw [show prevAtP prev (c :: t) 0 = prev from rfl, List.drop_zero, hm]; exact h,
          fun j hj => absurd hj (Nat.not_lt_zero j)⟩
      · rintro ⟨i, hi, hj⟩
        cases i with
        | zero =>
          rw [show prevAtP prev (c :: t) 0 = prev from rfl, List.drop_zero, hm] at hi
          exact hi
        | succ k =>
          have h0 := hj 0 (Nat.succ_pos k)
          rw [show prevAtP prev (c :: t) 0 = prev from rfl, List.drop_zero, hm] at h0
          cases h0
    | none =>
      dsimp only
      rw [ih (some c) r]
      constructor
      · rintro ⟨i, hi, hj⟩
        refine ⟨i + 1, ?_, ?_⟩
        · rw [← prevAtP_shift prev c t i, List.drop_succ_cons]
          exact hi
        · intro j hjlt
          cases j with
          | zero =>
            rw [show prevAtP prev (c :: t) 0 = prev from rfl, List.drop_zero]
            exact hm
          | succ k =>
            rw [← prevAtP_shift prev c t k, List.drop_succ_cons]
            exact hj k (by omega)
      · rintro ⟨i, hi, hj⟩
        cases i with
        | zero =>
          rw [show prevAtP prev (c :: t) 0 = prev from rfl, List.drop_zero, hm] at hi
          cases hi
        | succ k =>
          refine ⟨k, ?_, ?_⟩
          · rw [← prevAtP_shift prev c t k, List.drop_succ_cons] at hi
            exact hi
          · intro j hjk
            have := hj (j + 1) (by omega)
            rw [← prevAtP_shift prev c t j, List.drop_succ_cons] at this
            exact this

theorem scanB_eq_none_iff {α : Type} (m : Option Char → List Char → Option α)
    (hnil : ∀ p, m p [] = none) :
    ∀ (cs : List Char) (prev : Option Char),
      scanB m prev cs = none ↔ ∀ i, m (prevAtP prev cs i) (cs.drop i) = none := by
  intro cs
  induction cs with
  | nil =>
    intro prev
    constructor
    · intro _ i
      rw [List.drop_nil, hnil]
    · intro _; rfl
  | cons c t ih =>
    intro prev
    rw [scanB]
    cases hm : m prev (c :: t) with
    | some x =>
      dsimp only
      constructor
      · intro h; cases h
      · intro h
        have h0 := h 0
        rw [show prevAtP prev (c :: t) 0 = prev from rfl, List.drop_zero, hm] at h0
        cases h0
    | none =>
      dsimp only
      rw [ih (some c)]
      constructor
      · intro h j
        cases j with
        | zero =>
          rw [show prevAtP prev (c :: t) 0 = prev from rfl, List.drop_zero]
          exact hm
        | succ k =>
          rw [← prevAtP_shift prev c t k, List.drop_succ_cons]
          exact h k
      · intro h i
        rw [prevAtP_shift prev c t i, List.drop_succ_cons.symm]
        exact h (i + 1)

/-! ## Fixed-count and bounded-run matchers -/

theorem takeN_eq_some_iff {p : Char → Bool} :
    ∀ {n : Nat} {cs m r : List Char},
      takeN p n cs = some (m, r) ↔
        m.length = n ∧ (∀ c ∈ m, p c = true) ∧ cs = m ++ r := by
  intro n
  induction n with
  | zero =>
    intro cs m r
    constructor
    · intro h
      have h' := Option.some.inj h
      rw [Prod.ext_iff] at h'
      obtain ⟨h1, h2⟩ := h'
      subst h1
      subst h2
      exact ⟨rfl, by simp, by simp⟩
    · rintro ⟨hlen, -, hcs⟩
      have hm : m = [] := List.eq_nil_of_length_eq_zero hlen
      subst hm
      simp only [List.nil_append] at hcs
      subst hcs
      rfl
  | succ k ih =>
    intro cs m r
    cases cs with
    | nil =>
      constructor
      · intro h; simp [takeN] at h
      · rintro ⟨hlen, -, hcs⟩
        have hl := congrArg List.length hcs
        simp [List.length_append] at hl
        omega
    | cons c t =>
      rw [takeN]
      by_cases hp : p c
      · rw [if_pos hp]
        cases htk : takeN p k t with
        | none =>
          simp only [Option.map_none']
          constructor
          · intro h; cases h
          · rintro ⟨hlen, hall, hcs⟩
            cases m with
            | nil => simp at hlen
            | cons c0 m' =>
              rw [List.cons_append] at hcs
              injection hcs with h1 h2
              have hkt : takeN p k t = some (m', r) :=
                ih.mpr ⟨by simpa using hlen,
                  fun x hx => hall x (List.mem_cons_of_mem _ hx), h2⟩
              rw [htk] at hkt
              cases hkt
        | some pr =>
          obtain ⟨m', r'⟩ := pr
          simp only [Option.map_some']
          constructor
          · intro h
            have h' := Option.some.inj h
            rw [Prod.ext_iff] at h'
            obtain ⟨h1, h2⟩ := h'
            subst h1
            subst h2
            obtain ⟨hl, ha, hc⟩ := ih.mp htk
            refine ⟨by simp [hl], ?_, by simp [hc]⟩
            intro x hx
            rcases List.mem_cons.mp hx with rfl | hx'
            · exact hp
            · exact ha x hx'
          · rintro ⟨hlen, hall, hcs⟩
            cases m with
            | nil => simp at hlen
            | cons c0 m'' =>
              rw [List.cons_append] at hcs
              injection hcs with h1 h2
              subst h1
              have hkt : takeN p k t = some (m'', r) :=
                ih.mpr ⟨by simpa using hlen,
                  fun x hx => hall x (List.mem_cons_of_mem _ hx), h2⟩
              have h'' := Option.some.inj (htk.symm.trans hkt)
              rw [Prod.ext_iff] at h''
              obtain ⟨hm, hr⟩ := h''
              simp only [] at hm hr
              rw [hm, hr]
      · rw [if_neg hp]
        constructor
        · intro h; cases h
        · rintro ⟨hlen, hall, hcs⟩
          cases m with
          | nil => simp at hlen
          | cons c0 m' =>
            rw [List.cons_append] at hcs
            injection hcs with h1 h2
            subst h1
            exact absurd (hall c (List.mem_cons_self c m')) (by simp [hp])

theorem takeN_none_of_short {p : Char → Bool} :
    ∀ {n : Nat} {a b : List Char}, (∀ c ∈ a, p c = true) → a.length < n →
      (b = [] ∨ ∃ x tl, b = x :: tl ∧ p x = false) →
      takeN p n (a ++ b) = none := by
  intro n a
  induction a generalizing n with
  | nil =>
    intro b ha hlen hb
    cases n with
    | zero => omega
    | succ k =>
      rcases hb with rfl | ⟨x, tl, rfl, hx⟩
      · rfl
      · simp [takeN, hx]
  | cons c a' ih =>
    intro b ha hlen hb
    cases n with
    | zero => omega
    | succ k =>
      rw [List.cons_append, takeN, if_pos (ha c (List.mem_cons_self c a'))]
      rw [ih (fun x hx => ha x (List.mem_cons_of_mem _ hx))
        (by simp only [List.length_cons] at hlen; omega) hb]
      rfl

theorem expectChar_eq_some_iff {c : Char} {l r : List Char} :
    expectChar c l = some r ↔ l = c :: r := by
  cases l with
  | nil => simp [expectChar]
  | cons d t =>
    by_cases hd : d = c
    · subst hd
      simp [expectChar]
    · simp only [expectChar, if_neg hd]
      constructor
      · intro h; cases h
      · intro h
        injection h with h1 _
        exact absurd h1 hd

theorem isUpperC_word {c : Char} (h : isUpperC c = true) : isWordC c = true := by
  simp [isWordC, h]

theorem isDigitC_word {c : Char} (h : isDigitC c = true) : isWordC c = true := by
  simp [isWordC, h]

theorem isAlnumUC_word {c : Char} (h : isAlnumUC c = true) : isWordC c = true := by
  simp only [isAlnumUC, Bool.or_eq_true] at h
  rcases h with h | h
  · exact isUpperC_word h
  · exact isDigitC_word h

theorem tryRunEnd_sound {p : Char → Bool} {n : Nat} {cs m r : List Char}
    (h : tryRunEnd p n cs = some (m, r)) :
    m.length = n ∧ (∀ c ∈ m, p c = true) ∧ cs = m ++ r ∧ noWordAhead r = true := by
  unfold tryRunEnd at h
  cases htk : takeN p n cs with
  | none => rw [htk] at h; cases h
  | some pr =>
    obtain ⟨m', r'⟩ := pr
    rw [htk] at h
    dsimp only at h
    by_cases hw : noWordAhead r' = true
    · rw [if_pos hw] at h
      have h' := Option.some.inj h
      rw [Prod.ext_iff] at h'
      obtain ⟨h1, h2⟩ := h'
      simp only [] at h1 h2
      subst h1
      subst h2
      obtain ⟨ha, hb, hc⟩ := takeN_eq_some_iff.mp htk
      exact ⟨ha, hb, hc, hw⟩
    · rw [if_neg hw] at h; cases h

theorem tryRunEnd_exact {p : Char → Bool} {n : Nat} {c rest : List Char}
    (hall : ∀ x ∈ c, p x = true) (hlen : c.length = n) (hw : noWordAhead rest = true) :
    tryRunEnd p n (c ++ rest) = some (c, rest) := by
  unfold tryRunEnd
  rw [takeN_eq_some_iff.mpr ⟨hlen, hall, rfl⟩]
  dsimp only
  rw [if_pos hw]

theorem tryRunEnd_short {p : Char → Bool} {n : Nat} {c rest : List Char}
    (hpw : ∀ x, p x = true → isWordC x = true)
    (hall : ∀ x ∈ c, p x = true) (hlen : c.length < n) (hw : noWordAhead rest = true) :
    tryRunEnd p n (c ++ rest) = none := by
  have hb : rest = [] ∨ ∃ x tl, rest = x :: tl ∧ p x = false := by
    cases rest with
    | nil => exact Or.inl rfl
    | cons x tl =>
      refine Or.inr ⟨x, tl, rfl, ?_⟩
      have hxw : isWordC x = false := by simpa [noWordAhead] using hw
      cases hpc : p x
      · rfl
      · exact absurd (hpw x hpc) (by simp [hxw])
  have hnone : takeN p n (c ++ rest) = none := takeN_none_of_short hall hlen hb
  unfold tryRunEnd
  rw [hnone]

/-! ## Characterization of the license matchers -/

theorem matchStructAt_eq_some_iff {prev : Option Char} {cs m : List Char} :
    matchStructAt prev cs = some m ↔
      boundaryPrev prev = true ∧
      ∃ rest, cs = m ++ rest ∧ StructCode m ∧ noWordAhead rest = true := by
  constructor
  · intro h
    unfold matchStructAt at h
    by_cases hbp : boundaryPrev prev = true
    case neg => rw [if_neg hbp] at h; cases h
    rw [if_pos hbp] at h
    refine ⟨hbp, ?_⟩
    cases h3 : takeN isUpperC 3 cs with
    | none => rw [h3] at h; cases h
    | some pr1 =>
      obtain ⟨a, r1⟩ := pr1
      rw [h3] at h
      dsimp only at h
      cases hex1 : expectChar '-' r1 with
      | none => rw [hex1] at h; cases h
      | some r2 =>
        rw [hex1] at h
        dsimp only at h
        cases h3b : takeN isUpperC 3 r2 with
        | none => rw [h3b] at h; cases h
        | some pr2 =>
          obtain ⟨b, r3⟩ := pr2
          rw [h3b] at h
          dsimp only at h
          cases hex2 : expectChar '-' r3 with
          | none => rw [hex2] at h; cases h
          | some r4 =>
            rw [hex2] at h
            dsimp only at h
            obtain ⟨ha3, haU, hcs⟩ := takeN_eq_some_iff.mp h3
            have hr1 : r1 = '-' :: r2 := expectChar_eq_some_iff.mp hex1
            obtain ⟨hb3, hbU, hr2⟩ := takeN_eq_some_iff.mp h3b
            have hr3 : r3 = '-' :: r4 := expectChar_eq_some_iff.mp hex2
            cases ht6 : tryRunEnd isAlnumUC 6 r4 with
            | some pr =>
              obtain ⟨cp, rest⟩ := pr
              rw [ht6] at h
              dsimp only at h
              obtain ⟨hc6, hcA, hr4, hwr⟩ := tryRunEnd_sound ht6
              have hm := Option.some.inj h
              subst hm
              refine ⟨rest, ?_,
                ⟨a, b, cp, by simp, ha3, hb3, by omega, by omega, haU, hbU, hcA⟩, hwr⟩
              rw [hcs, hr1, hr2, hr3, hr4]
              simp
            | none =>
              rw [ht6] at h
              dsimp only at h
              cases ht5 : tryRunEnd isAlnumUC 5 r4 with
              | some pr =>
                obtain ⟨cp, rest⟩ := pr
                rw [ht5] at h
                dsimp only at h
                obtain ⟨hc5, hcA, hr4, hwr⟩ := tryRunEnd_sound ht5
                have hm := Option.some.inj h
                subst hm
                refine ⟨rest, ?_,
                  ⟨a, b, cp, by simp, ha3, hb3, by omega, by omega, haU, hbU, hcA⟩, hwr⟩
                rw [hcs, hr1, hr2, hr3, hr4]
                simp
              | none =>
                rw [ht5] at h
                dsimp only at h
                cases ht4 : tryRunEnd isAlnumUC 4 r4 with
                | some pr =>
                  obtain ⟨cp, rest⟩ := pr
                  rw [ht4] at h
                  dsimp only at h
                  obtain ⟨hc4, hcA, hr4, hwr⟩ := tryRunEnd_sound ht4
                  have hm := Option.some.inj h
                  subst hm
                  refine ⟨rest, ?_,
                    ⟨a, b, cp, by simp, ha3, hb3, by omega, by omega, haU, hbU, hcA⟩, hwr⟩
                  rw [hcs, hr1, hr2, hr3, hr4]
                  simp
                | none => rw [ht4] at h; cases h
  · rintro ⟨hbp, rest, hcs, ⟨a, b, cp, hm, ha3, hb3, hc4, hc6, haU, hbU, hcA⟩, hw⟩
    unfold matchStructAt
    rw [if_pos hbp]
    subst hm
    have hcs' : cs = a ++ ('-' :: (b ++ ('-' :: (cp ++ rest)))) := by
      rw [hcs]; simp
    rw [hcs']
    rw [takeN_eq_some_iff.mpr ⟨ha3, haU, rfl⟩]
    dsimp only
    rw [show expectChar '-' ('-' :: (b ++ ('-' :: (cp ++ rest)))) =
      some (b ++ ('-' :: (cp ++ rest))) from by simp [expectChar]]
    dsimp only
    rw [takeN_eq_some_iff.mpr ⟨hb3, hbU, rfl⟩]
    dsimp only
    rw [show expectChar '-' ('-' :: (cp ++ rest)) = some (cp ++ rest) from by
      simp [expectChar]]
    dsimp only
    have hLcases : cp.length = 4 ∨ cp.length = 5 ∨ cp.length = 6 := by omega
    have hpw : ∀ x, isAlnumUC x = true → isWordC x = true := fun x hx => isAlnumUC_word hx
    rcases hLcases with h4 | h5 | h6
    · rw [tryRunEnd_short hpw hcA (by omega) hw]
      dsimp only
      rw [tryRunEnd_short hpw hcA (by omega) hw]
      dsimp only
      rw [tryRunEnd_exact hcA h4 hw]
      simp
    · rw [tryRunEnd_short hpw hcA (by omega) hw]
      dsimp only
      rw [tryRunEnd_exact hcA h5 hw]
      simp
    · rw [tryRunEnd_exact hcA h6 hw]
      simp

theorem matchDigits68At_eq_some_iff {prev : Option Char} {cs m : List Char} :
    matchDigits68At prev cs = some m ↔
      boundaryPrev prev = true ∧
      ∃ rest, cs = m ++ rest ∧ DigitCode m ∧ noWordAhead rest = true := by
  constructor
  · intro h
    unfold matchDigits68At at h
    by_cases hbp : boundaryPrev prev = true
    case neg => rw [if_neg hbp] at h; cases h
    rw [if_pos hbp] at h
    refine ⟨hbp, ?_⟩
    cases ht8 : tryRunEnd isDigitC 8 cs with
    | some pr =>
      obtain ⟨d, rest⟩ := pr
      rw [ht8] at h
      dsimp only at h
      obtain ⟨hd8, hdD, hcs, hwr⟩ := tryRunEnd_sound ht8
      have hm := Option.some.inj h
      subst hm
      exact ⟨rest, hcs, ⟨by omega, by omega, hdD⟩, hwr⟩
    | none =>
      rw [ht8] at h
      dsimp only at h
      cases ht7 : tryRunEnd isDigitC 7 cs with
      | some pr =>
        obtain ⟨d, rest⟩ := pr
        rw [ht7] at h
        dsimp only at h
        obtain ⟨hd7, hdD, hcs, hwr⟩ := tryRunEnd_sound ht7
        have hm := Option.some.inj h
        subst hm
        exact ⟨rest, hcs, ⟨by omega, by omega, hdD⟩, hwr⟩
      | none =>
        rw [ht7] at h
        dsimp only at h
        cases ht6 : tryRunEnd isDigitC 6 cs with
        | some pr =>
          obtain ⟨d, rest⟩ := pr
          rw [ht6] at h
          dsimp only at h
          obtain ⟨hd6, hdD, hcs, hwr⟩ := tryRunEnd_sound ht6
          have hm := Option.some.inj h
          subst hm
          exact ⟨rest, hcs, ⟨by omega, by omega, hdD⟩, hwr⟩
        | none => rw [ht6] at h; cases h
  · rintro ⟨hbp, rest, hcs, ⟨h6, h8, hdD⟩, hw⟩
    unfold matchDigits68At
    rw [if_pos hbp]
    subst hcs
    have hpw : ∀ x, isDigitC x = true → isWordC x = true := fun x hx => isDigitC_word hx
    have hLcases : m.length = 6 ∨ m.length = 7 ∨ m.length = 8 := by omega
    rcases hLcases with hL | hL | hL
    · rw [tryRunEnd_short hpw hdD (by omega) hw]
      dsimp only
      rw [tryRunEnd_short hpw hdD (by omega) hw]
      dsimp only
      rw [tryRunEnd_exact hdD hL hw]
    · rw [tryRunEnd_short hpw hdD (by omega) hw]
      dsimp only
      rw [tryRunEnd_exact hdD hL hw]
    · rw [tryRunEnd_exact hdD hL hw]

theorem matchStructAt_nil (prev : Option Char) : matchStructAt prev [] = none := by
  unfold matchStructAt
  by_cases h : boundaryPrev prev = true
  · rw [if_pos h]
    rfl
  · rw [if_neg h]

theorem matchDigits68At_nil (prev : Option Char) : matchDigits68At prev [] = none := by
  unfold matchDigits68At
  by_cases h : boundaryPrev prev = true
  · rw [if_pos h]
    rfl
  · rw [if_neg h]

theorem structOccAt_iff_matcher {cs : List Char} {i : Nat} {m : List Char} :
    StructOccAt cs i m ↔ matchStructAt (prevAtP none cs i) (cs.drop i) = some m := by
  rw [matchStructAt_eq_some_iff]
  unfold StructOccAt prevAt
  exact Iff.rfl

theorem digitOccAt_iff_matcher {cs : List Char} {i : Nat} {m : List Char} :
    DigitOccAt cs i m ↔ matchDigits68At (prevAtP none cs i) (cs.drop i) = some m := by
  rw [matchDigits68At_eq_some_iff]
  unfold DigitOccAt prevAt
  exact Iff.rfl

theorem structCode_ne_nil {m : List Char} (h : StructCode m) : m ≠ [] := by
  obtain ⟨a, b, c, hm, -⟩ := h
  subst hm
  simp

theorem digitCode_ne_nil {m : List Char} (h : DigitCode m) : m ≠ [] := by
  obtain ⟨h6, -, -⟩ := h
  intro hnil
  subst hnil
  simp at h6

theorem mk_ne_empty {m : List Char} (h : m ≠ []) : String.mk m ≠ "" := by
  intro he
  rw [String.ext_iff] at he
  exact h he

/-- C3: `extract_license_from_text` returns the leftmost occurrence of
the structured pattern `[A-Z]{3}-[A-Z]{3}-[A-Z0-9]{4,6}` (at word
boundaries) when one occurs anywhere in the text — in particular a
structured occurrence wins over any standalone 6–8-digit number
regardless of position; failing that, the leftmost standalone
6–8-digit number; failing that, the empty string, and it returns the
empty string only when neither pattern occurs.  Exactly one code is
produced per text. -/
theorem extract_license_spec (text : String) :
    (∀ i m, StructOccAt text.toList i m →
      (∀ j, j < i → ∀ m', ¬ StructOccAt text.toList j m') →
      extract_license_from_text text = String.mk m) ∧
    (HasStructOcc text.toList →
      ∃ m, StructCode m ∧ extract_license_from_text text = String.mk m) ∧
    (¬ HasStructOcc text.toList →
      ∀ i m, DigitOccAt text.toList i m →
      (∀ j, j < i → ∀ m', ¬ DigitOccAt text.toList j m') →
      extract_license_from_text text = String.mk m) ∧
    (¬ HasStructOcc text.toList → ¬ HasDigitOcc text.toList →
      extract_license_from_text text = "") ∧
    (extract_license_from_text text = "" →
      ¬ HasStructOcc text.toList ∧ ¬ HasDigitOcc text.toList) := by
  refine ⟨?_, ?_, ?_, ?_, ?_⟩
  · intro i m hocc hleft
    have hscan : scanB matchStructAt none text.toList = some m := by
      rw [scanB_eq_some_iff matchStructAt matchStructAt_nil]
      refine ⟨i, structOccAt_iff_matcher.mp hocc, ?_⟩
      intro j hj
      cases hmj : matchStructAt (prevAtP none text.toList j) (text.toList.drop j) with
      | none => rfl
      | some m' => exact absurd (structOccAt_iff_matcher.mpr hmj) (hleft j hj m')
    unfold extract_license_from_text
    rw [hscan]
  · rintro ⟨i, m, hocc⟩
    cases hscan : scanB matchStructAt none text.toList with
    | none =>
      have := (scanB_eq_none_iff matchStructAt matchStructAt_nil text.toList none).mp hscan i
      rw [structOccAt_iff_matcher.mp hocc] at this
      cases this
    | some m' =>
      obtain ⟨i', hm', -⟩ :=
        (scanB_eq_some_iff matchStructAt matchStructAt_nil text.toList none m').mp hscan
      obtain ⟨-, rest, -, hsc, -⟩ := structOccAt_iff_matcher.mpr hm'
      refine ⟨m', hsc, ?_⟩
      unfold extract_license_from_text
      rw [hscan]
  · intro hno i m hocc hleft
    have hsnone : scanB matchStructAt none text.toList = none := by
      rw [scanB_eq_none_iff matchStructAt matchStructAt_nil]
      intro j
      cases hmj : matchStructAt (prevAtP none text.toList j) (text.toList.drop j) with
      | none => rfl
      | some m' => exact absurd ⟨j, m', structOccAt_iff_matcher.mpr hmj⟩ hno
    have hscan : scanB matchDigits68At none text.toList = some m := by
      rw [scanB_eq_some_iff matchDigits68At matchDigits68At_nil]
      refine ⟨i, digitOccAt_iff_matcher.mp hocc, ?_⟩
      intro j hj
      cases hmj : matchDigits68At (prevAtP none text.toList j) (text.toList.drop j) with
      | none => rfl
      | some m' => exact absurd (digitOccAt_iff_matcher.mpr hmj) (hleft j hj m')
    unfold extract_license_from_text
    rw [hsnone, hscan]
  · intro hnos hnod
    have hsnone : scanB matchStructAt none text.toList = none := by
      rw [scanB_eq_none_iff matchStructAt matchStructAt_nil]
      intro j
      cases hmj : matchStructAt (prevAtP none text.toList j) (text.toList.drop j) with
      | none => rfl
      | some m' => exact absurd ⟨j, m', structOccAt_iff_matcher.mpr hmj⟩ hnos
    have hdnone : scanB matchDigits68At none text.toList = none := by
      rw [scanB_eq_none_iff matchDigits68At matchDigits68At_nil]
      intro j
      cases hmj : matchDigits68At (prevAtP none text.toList j) (text.toList.drop j) with
      | none => rfl
      | some m' => exact absurd ⟨j, m', digitOccAt_iff_matcher.mpr hmj⟩ hnod
    unfold extract_license_from_text
    rw [hsnone, hdnone]
  · intro hempty
    unfold extract_license_from_text at hempty
    cases hscan : scanB matchStructAt none text.toList with
    | some m' =>
      rw [hscan] at hempty
      obtain ⟨i', hm', -⟩ :=
        (scanB_eq_some_iff matchStructAt matchStructAt_nil text.toList none m').mp hscan
      obtain ⟨-, rest, -, hsc, -⟩ := structOccAt_iff_matcher.mpr hm'
      exact absurd hempty (mk_ne_empty (structCode_ne_nil hsc))
    | none =>
      rw [hscan] at hempty
      cases hdscan : scanB matchDigits68At none text.toList with
      | some m' =>
        rw [hdscan] at hempty
        obtain ⟨i', hm', -⟩ :=
          (scanB_eq_some_iff matchDigits68At matchDigits68At_nil text.toList none m').mp hdscan
        obtain ⟨-, rest, -, hdc, -⟩ := digitOccAt_iff_matcher.mpr hm'
        exact absurd hempty (mk_ne_empty (digitCode_ne_nil hdc))
      | none =>
        constructor
        · rintro ⟨i, m, hocc⟩
          have := (scanB_eq_none_iff matchStructAt matchStructAt_nil text.toList none).mp hscan i
          rw [structOccAt_iff_matcher.mp hocc] at this
          cases this
        · rintro ⟨i, m, hocc⟩
          have := (scanB_eq_none_iff matchDigits68At matchDigits68At_nil text.toList none).mp hdscan i
          rw [digitOccAt_iff_matcher.mp hocc] at this
          cases this

theorem extract_license_spec_witness :
    extract_license_from_text "BUS-MAG-42KDF licence 1333701" =
      String.mk "BUS-MAG-42KDF".toList ∧
    extract_license_from_text "1333701 permis" = String.mk "1333701".toList ∧
    extract_license_from_text "rien" = "" := by
  refine ⟨?_, ?_, ?_⟩
  · refine (extract_license_spec "BUS-MAG-42KDF licence 1333701").1 0
      "BUS-MAG-42KDF".toList
      ⟨by decide, " licence 1333701".toList, by decide,
        ⟨"BUS".toList, "MAG".toList, "42KDF".toList, by decide, by decide,
          by decide, by decide, by decide, by decide, by decide, by decide⟩,
        by decide⟩
      (fun j hj m' _ => absurd hj (by omega))
  · have hnos : ¬ HasStructOcc "1333701 permis".toList := by
      rintro ⟨i, m, hocc⟩
      have hn := (scanB_eq_none_iff matchStructAt matchStructAt_nil
        "1333701 permis".toList none).mp (by decide) i
      rw [structOccAt_iff_matcher.mp hocc] at hn
      cases hn
    refine (extract_license_spec "1333701 permis").2.2.1 hnos 0 "1333701".toList
      ⟨by decide, " permis".toList, by decide, ⟨by decide, by decide, by decide⟩, by decide⟩
      (fun j hj m' _ => absurd hj (by omega))
  · have hnos : ¬ HasStructOcc "rien".toList := by
      rintro ⟨i, m, hocc⟩
      have hn := (scanB_eq_none_iff matchStructAt matchStructAt_nil
        "rien".toList none).mp (by decide) i
      rw [structOccAt_iff_matcher.mp hocc] at hn
      cases hn
    have hnod : ¬ HasDigitOcc "rien".toList := by
      rintro ⟨i, m, hocc⟩
      have hn := (scanB_eq_none_iff matchDigits68At matchDigits68At_nil
        "rien".toList none).mp (by decide) i
      rw [digitOccAt_iff_matcher.mp hocc] at hn
      cases hn
    exact (extract_license_spec "rien").2.2.2.1 hnos hnod

/-! ## Character-class facts -/

theorem isDigitC_not_upper {c : Char} (h : isDigitC c = true) : isUpperC c = false := by
  simp only [isDigitC, Bool.and_eq_true, decide_eq_true_eq] at h
  simp only [isUpperC, Bool.and_eq_true, decide_eq_true_eq]
  cases hu : (decide ('A' ≤ c) && decide (c ≤ 'Z'))
  · rfl
  · simp only [Bool.and_eq_true, decide_eq_true_eq] at hu
    exact absurd (le_trans hu.1 h.2) (by decide)

theorem isSpaceC_not_digit {c : Char} (h : isSpaceC c = true) : isDigitC c = false := by
  simp only [isSpaceC, Bool.or_eq_true, decide_eq_true_eq] at h
  rcases h with ((((((h | h) | h) | h) | h) | h) | h) | h <;> subst h <;> decide

theorem isSpaceC_not_upper {c : Char} (h : isSpaceC c = true) : isUpperC c = false := by
  simp only [isSpaceC, Bool.or_eq_true, decide_eq_true_eq] at h
  rcases h with ((((((h | h) | h) | h) | h) | h) | h) | h <;> subst h <;> decide

theorem isDigitC_not_space {c : Char} (h : isDigitC c = true) : isSpaceC c = false := by
  cases hs : isSpaceC c
  · rfl
  · rw [isSpaceC_not_digit hs] at h
    cases h

theorem isNumSpC_false_of {c : Char} (hd : isDigitC c = false) (hs : isSpaceC c = false) :
    isNumSpC c = false := by
  simp [isNumSpC, hd, hs]

/-- The text after the capture of `\s+commentaire` starts with a
`c`-like character, which is neither a digit nor whitespace. -/
theorem commentaire_head_not_numsp {rest : List Char}
    (h : startsWithCI commentaireL rest = true) :
    ∀ x tl, rest = x :: tl → isNumSpC x = false := by
  intro x tl hrest
  subst hrest
  have hci : eqCI 'c' x = true := by
    have : commentaireL = 'c' :: "ommentaire".toList := by decide
    rw [this] at h
    simp only [startsWithCI, Bool.and_eq_true] at h
    exact h.1
  cases hnum : isNumSpC x
  · rfl
  · exfalso
    have hup : isUpperC x = false := by
      simp only [isNumSpC, Bool.or_eq_true] at hnum
      rcases hnum with hd | hs
      · exact isDigitC_not_upper hd
      · exact isSpaceC_not_upper hs
    have hx : x = 'c' := by
      simp only [eqCI, lowerA, decide_eq_true_eq] at hci
      have hcup : ¬ (isUpperC 'c' = true) := by decide
      have hxup : ¬ (isUpperC x = true) := by simp [hup]
      rw [if_neg hcup, if_neg hxup] at hci
      exact hci.symm
    subst hx
    simp [isNumSpC, isDigitC, isSpaceC] at hnum

theorem takeWhile_app_all {p : Char → Bool} {a b : List Char}
    (ha : ∀ c ∈ a, p c = true) (hb : ∀ x tl, b = x :: tl → p x = false) :
    (a ++ b).takeWhile p = a ∧ (a ++ b).dropWhile p = b := by
  rw [List.takeWhile_append_of_pos ha, List.dropWhile_append_of_pos ha]
  cases b with
  | nil => simp
  | cons x tl =>
    have hx := hb x tl rfl
    rw [List.takeWhile_cons, List.dropWhile_cons]
    simp [hx]

/-! ## Characterization of the rating matcher -/

theorem takeWhile_self_decomp (p : Char → Bool) (l : List Char) :
    l = l.takeWhile p ++ l.dropWhile p := (List.takeWhile_append_dropWhile p l).symm

theorem all_mem_takeWhile (p : Char → Bool) (l : List Char) :
    ∀ c ∈ l.takeWhile p, p c = true :=
  fun _ hc => List.mem_takeWhile_imp hc

theorem matchRatingAt_eq_some_iff {cs g : List Char} :
    matchRatingAt cs = some g ↔ RatingOcc0 cs g := by
  constructor
  · intro h
    unfold matchRatingAt at h
    cases htw : cs.takeWhile isDigitC with
    | nil => rw [htw] at h; cases h
    | cons d ds =>
      rw [htw] at h
      dsimp only at h
      have hcs : cs = (d :: ds) ++ cs.dropWhile isDigitC := by
        conv_lhs => rw [takeWhile_self_decomp isDigitC cs]
        rw [htw]
      have hd1 : ∀ x ∈ (d :: ds), isDigitC x = true := by
        intro x hx
        exact List.mem_takeWhile_imp (htw ▸ hx)
      cases hr1 : cs.dropWhile isDigitC with
      | nil =>
        rw [hr1] at h
        dsimp only at h
        rw [List.dropWhile_nil] at h
        cases h
      | cons c t =>
        rw [hr1] at h
        dsimp only at h
        rw [hr1] at hcs
        by_cases hc : (c = '.' || c = ',') = true
        · rw [if_pos hc] at h
          cases hd2 : t.takeWhile isDigitC with
          | nil =>
            rw [hd2] at h
            dsimp only at h
            split at h
            next r4 hr4 =>
              split at h
              next r5 h5 =>
                have hg := Option.some.inj h
                subst hg
                refine ⟨(c :: t).takeWhile isSpaceC, r4.takeWhile isSpaceC, r5,
                  ?_, ⟨d :: ds, [], by simp, by simp, hd1, Or.inl rfl⟩, ?_, ?_⟩
                · rw [hcs]
                  have h1 : (c :: t) = (c :: t).takeWhile isSpaceC ++
                      ('s' :: 'u' :: 'r' :: r4) := by
                    conv_lhs => rw [takeWhile_self_decomp isSpaceC (c :: t)]
                    rw [hr4]
                  have h2 : r4 = r4.takeWhile isSpaceC ++ ('5' :: r5) := by
                    conv_lhs => rw [takeWhile_self_decomp isSpaceC r4]
                    rw [h5]
                  conv_lhs => rw [h1]
                  conv_lhs => rw [h2]
                  simp
                · exact all_mem_takeWhile isSpaceC (c :: t)
                · exact all_mem_takeWhile isSpaceC r4
              next => cases h
            next => cases h
          | cons d2 ds2 =>
            rw [hd2] at h
            dsimp only at h
            have ht : t = (d2 :: ds2) ++ t.dropWhile isDigitC := by
              conv_lhs => rw [takeWhile_self_decomp isDigitC t]
              rw [hd2]
            have hd2all : ∀ x ∈ (d2 :: ds2), isDigitC x = true := by
              intro x hx
              exact List.mem_takeWhile_imp (hd2 ▸ hx)
            split at h
            next r4 hr4 =>
              split at h
              next r5 h5 =>
                have hg := Option.some.inj h
                subst hg
                refine ⟨(t.dropWhile isDigitC).takeWhile isSpaceC, r4.takeWhile isSpaceC, r5,
                  ?_, ⟨d :: ds, c :: d2 :: ds2, rfl, by simp, hd1,
                    Or.inr ⟨c, d2 :: ds2, rfl, by simpa using hc, by simp, hd2all⟩⟩,
                  ?_, ?_⟩
                · rw [hcs]
                  have h1 : t.dropWhile isDigitC =
                      (t.dropWhile isDigitC).takeWhile isSpaceC ++
                        ('s' :: 'u' :: 'r' :: r4) := by
                    conv_lhs => rw [takeWhile_self_decomp isSpaceC (t.dropWhile isDigitC)]
                    rw [hr4]
                  have h2 : r4 = r4.takeWhile isSpaceC ++ ('5' :: r5) := by
                    conv_lhs => rw [takeWhile_self_decomp isSpaceC r4]
                    rw [h5]
                  conv_lhs => rw [ht, h1]
                  conv_lhs => rw [h2]
                  simp
                · exact all_mem_takeWhile isSpaceC (t.dropWhile isDigitC)
                · exact all_mem_takeWhile isSpaceC r4
              next => cases h
            next => cases h
        · rw [if_neg hc] at h
          dsimp only at h
          split at h
          next r4 hr4 =>
            split at h
            next r5 h5 =>
              have hg := Option.some.inj h
              subst hg
              refine ⟨(c :: t).takeWhile isSpaceC, r4.takeWhile isSpaceC, r5,
                ?_, ⟨d :: ds, [], by simp, by simp, hd1, Or.inl rfl⟩, ?_, ?_⟩
              · rw [hcs]
                have h1 : (c :: t) = (c :: t).takeWhile isSpaceC ++
                    ('s' :: 'u' :: 'r' :: r4) := by
                  conv_lhs => rw [takeWhile_self_decomp isSpaceC (c :: t)]
                  rw [hr4]
                have h2 : r4 = r4.takeWhile isSpaceC ++ ('5' :: r5) := by
                  conv_lhs => rw [takeWhile_self_decomp isSpaceC r4]
                  rw [h5]
                conv_lhs => rw [h1]
                conv_lhs => rw [h2]
                simp
              · exact all_mem_takeWhile isSpaceC (c :: t)
              · exact all_mem_takeWhile isSpaceC r4
            next => cases h
          next => cases h
  · rintro ⟨ws1, ws2, rest, hcs, ⟨d1, tl, hg, hd1ne, hd1, htl⟩, hws1, hws2⟩
    have hsur5 : ∀ x tl', ('s' :: 'u' :: 'r' :: (ws2 ++ '5' :: rest)) = x :: tl' →
        isDigitC x = false := by
      intro x tl' hx
      injection hx with h1 _
      subst h1
      decide
    have hsurSp : ∀ x tl', ('s' :: 'u' :: 'r' :: (ws2 ++ '5' :: rest)) = x :: tl' →
        isSpaceC x = false := by
      intro x tl' hx
      injection hx with h1 _
      subst h1
      decide
    have hws1digit : ∀ x tl', (ws1 ++ ('s' :: 'u' :: 'r' :: (ws2 ++ '5' :: rest))) = x :: tl' →
        isDigitC x = false := by
      intro x tl' hx
      cases ws1 with
      | nil => exact hsur5 x tl' (by simpa using hx)
      | cons w ws =>
        rw [List.cons_append] at hx
        injection hx with h1 _
        rw [← h1]
        exact isSpaceC_not_digit (hws1 w (List.mem_cons_self w ws))
    have htail : ∀ x tl', (tl ++ (ws1 ++ ('s' :: 'u' :: 'r' :: (ws2 ++ '5' :: rest)))) = x :: tl' →
        isDigitC x = false := by
      intro x tl' hx
      rcases htl with rfl | ⟨c, d2, rfl, hc, hd2ne, hd2⟩
      · exact hws1digit x tl' (by simpa using hx)
      · rw [List.cons_append] at hx
        injection hx with h1 _
        subst h1
        rcases hc with rfl | rfl <;> decide
    have hcs' : cs = d1 ++ (tl ++ (ws1 ++ ('s' :: 'u' :: 'r' :: (ws2 ++ '5' :: rest)))) := by
      rw [hcs, hg]
      simp
    obtain ⟨htw, htd⟩ := takeWhile_app_all hd1 htail
    rw [← hcs'] at htw htd
    obtain ⟨-, hdw⟩ := takeWhile_app_all hws1 hsurSp
    obtain ⟨-, hd5⟩ := @takeWhile_app_all isSpaceC ws2 ('5' :: rest) hws2
      (fun x tl' hx => by injection hx with h1 _; subst h1; decide)
    subst hg
    unfold matchRatingAt
    rw [htw]
    cases d1 with
    | nil => exact absurd rfl hd1ne
    | cons e es =>
      try dsimp only
      rw [htd]
      rcases htl with rfl | ⟨c, d2, rfl, hc, hd2ne, hd2⟩
      · -- no decimal part
        simp only [List.nil_append]
        cases ws1 with
        | nil =>
          simp only [List.nil_append] at hdw ⊢
          try dsimp only
          rw [if_neg (by decide)]
          try dsimp only
          rw [hdw]
          simp [hd5]
        | cons w ws =>
          simp only [List.cons_append] at hdw ⊢
          try dsimp only
          have hwsp : isSpaceC w = true := hws1 w (List.mem_cons_self w ws)
          rw [if_neg ?wnotdot]
          case wnotdot =>
            intro hcontra
            simp only [Bool.or_eq_true, decide_eq_true_eq] at hcontra
            rcases hcontra with rfl | rfl <;> simp [isSpaceC] at hwsp
          try dsimp only
          rw [hdw]
          simp [hd5]
      · -- decimal part `c :: d2`
        simp only [List.cons_append]
        try dsimp only
        rw [if_pos (by rcases hc with rfl | rfl <;> simp)]
        obtain ⟨htw2, htd2⟩ := takeWhile_app_all hd2 hws1digit
        rw [htw2]
        cases d2 with
        | nil => exact absurd rfl hd2ne
        | cons f fs =>
          try dsimp only
          rw [htd2]
          rw [hdw]
          simp [hd5]

/-! ## Characterization of the tenure matcher -/

theorem startsWithCI_length : ∀ {pat cs : List Char},
    startsWithCI pat cs = true → pat.length ≤ cs.length := by
  intro pat
  induction pat with
  | nil => intro cs _; simp
  | cons p pt ih =>
    intro cs h
    cases cs with
    | nil => simp [startsWithCI] at h
    | cons c ct =>
      simp only [startsWithCI, Bool.and_eq_true] at h
      have := ih h.2
      simp only [List.length_cons]
      omega

theorem startsWithCI_take : ∀ {pat cs : List Char},
    startsWithCI pat cs = true → startsWithCI pat (cs.take pat.length) = true := by
  intro pat
  induction pat with
  | nil => intro cs _; rfl
  | cons p pt ih =>
    intro cs h
    cases cs with
    | nil => simp [startsWithCI] at h
    | cons c ct =>
      simp only [startsWithCI, Bool.and_eq_true] at h
      simp only [List.length_cons, List.take_succ_cons, startsWithCI, Bool.and_eq_true]
      exact ⟨h.1, ih h.2⟩

theorem startsWithCI_append : ∀ {pat a : List Char} (b : List Char),
    startsWithCI pat a = true → pat.length ≤ a.length →
    startsWithCI pat (a ++ b) = true := by
  intro pat
  induction pat with
  | nil => intro a b _ _; rfl
  | cons p pt ih =>
    intro a b h hlen
    cases a with
    | nil => simp at hlen
    | cons c ct =>
      simp only [startsWithCI, Bool.and_eq_true] at h
      rw [List.cons_append]
      simp only [startsWithCI, Bool.and_eq_true]
      refine ⟨h.1, ih b h.2 ?_⟩
      simp only [List.length_cons] at hlen
      omega

theorem matchTenureAt_eq_some_iff {cs : List Char} {y : Nat} :
    matchTenureAt cs = some y ↔ TenureOcc0 cs y := by
  constructor
  · intro h
    rcases cs with _ | ⟨c1, _ | ⟨c2, _ | ⟨c3, _ | ⟨c4, _ | ⟨c5, rest0⟩⟩⟩⟩⟩ <;>
      try (cases h)
    unfold matchTenureAt at h
    dsimp only at h
    by_cases hcond : (eqCI c1 'h' && (c2 = 'o' || c2 = 'O' || c2 = 'ô' || c2 = 'Ô') &&
        eqCI c3 't' && eqCI c4 'e' && decide (c5 = ' ') && startsWithCI depuisL rest0) = true
    case neg => rw [if_neg hcond] at h; cases h
    rw [if_pos hcond] at h
    simp only [Bool.and_eq_true, Bool.or_eq_true, decide_eq_true_eq] at hcond
    obtain ⟨⟨⟨⟨⟨h1, h2⟩, h3⟩, h4⟩, h5⟩, h6⟩ := hcond
    subst h5
    cases hsp : (rest0.drop 6).takeWhile isSpaceC with
    | nil => rw [hsp] at h; cases h
    | cons s ss =>
      rw [hsp] at h
      dsimp only at h
      cases htk : takeN isDigitC 4 ((rest0.drop 6).dropWhile isSpaceC) with
      | none => rw [htk] at h; cases h
      | some pr =>
        obtain ⟨dgs, rem⟩ := pr
        rw [htk] at h
        dsimp only at h
        have hy := Option.some.inj h
        obtain ⟨hds4, hdsdig, hdrop⟩ := takeN_eq_some_iff.mp htk
        have hlen6 : 6 ≤ rest0.length := by
          have := startsWithCI_length h6
          simpa using this
        refine ⟨c1, c2, c3, c4, rest0.take 6, s :: ss, dgs, rem, ?_, h1, ?_, h3, h4,
          ?_, ?_, ?_, ?_, hds4, hdsdig, hy⟩
        · have hr0 : rest0 = rest0.take 6 ++ rest0.drop 6 := (List.take_append_drop 6 rest0).symm
          have hr6 : rest0.drop 6 = (s :: ss) ++ (rest0.drop 6).dropWhile isSpaceC := by
            conv_lhs => rw [takeWhile_self_decomp isSpaceC (rest0.drop 6)]
            rw [hsp]
          conv_lhs => rw [hr0, hr6, hdrop]
        · tauto
        · rw [List.length_take]
          omega
        · have : startsWithCI depuisL (rest0.take depuisL.length) = true := startsWithCI_take h6
          simpa using this
        · simp
        · intro c hc
          exact List.mem_takeWhile_imp (hsp ▸ hc)
  · rintro ⟨c1, c2, c3, c4, dpu, sp, ds, rest, hcs, h1, h2, h3, h4, hdpu6, hdpuCI,
      hspne, hsp, hds4, hdsdig, hy⟩
    subst hcs
    unfold matchTenureAt
    dsimp only
    have hcond : (eqCI c1 'h' && (c2 = 'o' || c2 = 'O' || c2 = 'ô' || c2 = 'Ô') &&
        eqCI c3 't' && eqCI c4 'e' && decide (' ' = ' ') &&
        startsWithCI depuisL (dpu ++ (sp ++ (ds ++ rest)))) = true := by
      have hsw : startsWithCI depuisL (dpu ++ (sp ++ (ds ++ rest))) = true := by
        refine startsWithCI_append _ hdpuCI ?_
        rw [hdpu6]
        decide
      simp only [Bool.and_eq_true, Bool.or_eq_true, decide_eq_true_eq]
      refine ⟨⟨⟨⟨⟨h1, ?_⟩, h3⟩, h4⟩, trivial⟩, hsw⟩
      tauto
    rw [if_pos hcond]
    have hdrop6 : (dpu ++ (sp ++ (ds ++ rest))).drop 6 = sp ++ (ds ++ rest) := by
      rw [← hdpu6]
      exact List.drop_left dpu (sp ++ (ds ++ rest))
    rw [hdrop6]
    have hdshape : ∀ x tl', ds ++ rest = x :: tl' → isSpaceC x = false := by
      intro x tl' hx
      cases ds with
      | nil => simp at hds4
      | cons d0 ds' =>
        rw [List.cons_append] at hx
        injection hx with hh _
        rw [← hh]
        exact isDigitC_not_space (hdsdig d0 (List.mem_cons_self d0 ds'))
    obtain ⟨hspt, hspd⟩ := takeWhile_app_all hsp hdshape
    rw [hspt]
    cases sp with
    | nil => exact absurd rfl hspne
    | cons s0 sp' =>
      dsimp only
      rw [hspd]
      rw [takeN_eq_some_iff.mpr ⟨hds4, hdsdig, rfl⟩]
      dsimp only
      rw [hy]

/-! ## Characterization of the reviews matcher -/

theorem backtrackReviews_sound : ∀ {fuel : Nat} {run rest g : List Char},
    backtrackReviews run rest fuel = some g →
    ∃ k, 1 ≤ k ∧ k ≤ fuel ∧ g = run.take k ∧
      spacesThenCommentaire (run.drop k ++ rest) = true := by
  intro fuel
  induction fuel with
  | zero => intro run rest g h; cases h
  | succ f ih =>
    intro run rest g h
    unfold backtrackReviews at h
    by_cases hc : spacesThenCommentaire (run.drop (f + 1) ++ rest) = true
    · rw [if_pos hc] at h
      exact ⟨f + 1, by omega, le_refl _, (Option.some.inj h).symm, hc⟩
    · rw [if_neg hc] at h
      obtain ⟨k, hk1, hkf, hg, hsc⟩ := ih h
      exact ⟨k, hk1, by omega, hg, hsc⟩

theorem backtrackReviews_some_of_exists : ∀ {fuel : Nat} {run rest : List Char} {k : Nat},
    1 ≤ k → k ≤ fuel → spacesThenCommentaire (run.drop k ++ rest) = true →
    ∃ g, backtrackReviews run rest fuel = some g := by
  intro fuel
  induction fuel with
  | zero => intro run rest k hk1 hkf _; omega
  | succ f ih =>
    intro run rest k hk1 hkf hsc
    unfold backtrackReviews
    by_cases hc : spacesThenCommentaire (run.drop (f + 1) ++ rest) = true
    · rw [if_pos hc]
      exact ⟨run.take (f + 1), rfl⟩
    · rw [if_neg hc]
      rcases Nat.lt_or_ge k (f + 1) with hlt | hge
      · exact ih hk1 (by omega) hsc
      · have hke : k = f + 1 := by omega
        rw [hke] at hsc
        exact absurd hsc hc

theorem matchReviewsAt_sound {cs g : List Char} (h : matchReviewsAt cs = some g) :
    ReviewsOcc0 cs g := by
  cases cs with
  | nil => cases h
  | cons c ct =>
    unfold matchReviewsAt at h
    dsimp only at h
    by_cases hd : isDigitC c = true
    case neg => rw [if_neg hd] at h; cases h
    rw [if_pos hd] at h
    obtain ⟨k, hk1, hkl, hg, hsc⟩ := backtrackReviews_sound h
    unfold spacesThenCommentaire at hsc
    cases hspt : (((c :: ct).takeWhile isNumSpC).drop k ++
        (c :: ct).dropWhile isNumSpC).takeWhile isSpaceC with
    | nil => rw [hspt] at hsc; cases hsc
    | cons s ss =>
      rw [hspt] at hsc
      dsimp only at hsc
      refine ⟨s :: ss,
        (((c :: ct).takeWhile isNumSpC).drop k ++
          (c :: ct).dropWhile isNumSpC).dropWhile isSpaceC, ?_, ?_, ?_, ?_, ?_, hsc⟩
      · have h1 : (c :: ct) = ((c :: ct).takeWhile isNumSpC).take k ++
            (((c :: ct).takeWhile isNumSpC).drop k ++ (c :: ct).dropWhile isNumSpC) := by
          conv_lhs => rw [takeWhile_self_decomp isNumSpC (c :: ct)]
          rw [← List.append_assoc, List.take_append_drop]
        have h2 : ((c :: ct).takeWhile isNumSpC).drop k ++ (c :: ct).dropWhile isNumSpC =
            (s :: ss) ++ (((c :: ct).takeWhile isNumSpC).drop k ++
              (c :: ct).dropWhile isNumSpC).dropWhile isSpaceC := by
          conv_lhs => rw [takeWhile_self_decomp isSpaceC
            (((c :: ct).takeWhile isNumSpC).drop k ++ (c :: ct).dropWhile isNumSpC)]
          rw [hspt]
        conv_lhs => rw [h1, h2]
        rw [hg, List.append_assoc]
      · have hnum : isNumSpC c = true := by simp [isNumSpC, hd]
        have hruncons : (c :: ct).takeWhile isNumSpC = c :: ct.takeWhile isNumSpC :=
          List.takeWhile_cons_of_pos hnum
        obtain ⟨k', hk'⟩ : ∃ k', k = k' + 1 := ⟨k - 1, by omega⟩
        rw [hruncons, hk', List.take_succ_cons] at hg
        exact ⟨c, (ct.takeWhile isNumSpC).take k', hg, hd⟩
      · intro x hx
        rw [hg] at hx
        exact List.mem_takeWhile_imp (List.take_subset _ _ hx)
      · simp
      · intro x hx
        rw [← hspt] at hx
        exact List.mem_takeWhile_imp hx

theorem matchReviewsAt_complete {cs g' : List Char} (ho : ReviewsOcc0 cs g') :
    ∃ g, matchReviewsAt cs = some g := by
  obtain ⟨sp, rest, hcs, ⟨d, gt, hgd, hd⟩, hgnum, hspne, hspc, hsw⟩ := ho
  have hrhead := commentaire_head_not_numsp hsw
  have hall : ∀ c ∈ g' ++ sp, isNumSpC c = true := by
    intro x hx
    rcases List.mem_append.mp hx with hx | hx
    · exact hgnum x hx
    · simp [isNumSpC, hspc x hx]
  obtain ⟨htw, hdw⟩ := takeWhile_app_all hall hrhead
  rw [← hcs] at htw hdw
  have hcons : cs = d :: ((gt ++ sp) ++ rest) := by
    rw [hcs, hgd]
    simp
  rw [hcons] at htw hdw ⊢
  unfold matchReviewsAt
  dsimp only
  rw [if_pos hd, htw, hdw]
  refine @backtrackReviews_some_of_exists (g' ++ sp).length (g' ++ sp) rest g'.length
    ?_ ?_ ?_
  · rw [hgd]
    simp
  · simp
  · rw [List.drop_left]
    unfold spacesThenCommentaire
    have hrheadSp : ∀ x tl', rest = x :: tl' → isSpaceC x = false := by
      intro x tl' hx
      have hns := hrhead x tl' hx
      cases hsx : isSpaceC x
      · rfl
      · exfalso
        rw [isNumSpC, hsx, Bool.or_true] at hns
        cases hns
    obtain ⟨htw2, hdw2⟩ := takeWhile_app_all hspc hrheadSp
    rw [htw2, hdw2]
    cases sp with
    | nil => exact absurd rfl hspne
    | cons s0 sp' => exact hsw

theorem reviewsOcc0_filter {cs g : List Char} (ho : ReviewsOcc0 cs g) :
    g.filter isDigitC = (cs.takeWhile isNumSpC).filter isDigitC := by
  obtain ⟨sp, rest, hcs, -, hgnum, -, hspc, hsw⟩ := ho
  have hall : ∀ c ∈ g ++ sp, isNumSpC c = true := by
    intro x hx
    rcases List.mem_append.mp hx with hx | hx
    · exact hgnum x hx
    · simp [isNumSpC, hspc x hx]
  obtain ⟨htw, -⟩ := takeWhile_app_all hall (commentaire_head_not_numsp hsw)
  rw [hcs, htw, List.filter_append]
  have hspnil : sp.filter isDigitC = [] := by
    rw [List.filter_eq_nil_iff]
    intro c hc
    rw [isSpaceC_not_digit (hspc c hc)]
    simp
  rw [hspnil, List.append_nil]

theorem matchRatingAt_nil : matchRatingAt [] = none := rfl

theorem matchReviewsAt_nil : matchReviewsAt [] = none := rfl

theorem matchTenureAt_nil : matchTenureAt [] = none := rfl

/-! ## Success path of the extractor -/

theorem mergeStat_empty (v : String) : mergeStat "" v = v := by
  by_cases hv : v = ""
  · simp [mergeStat, hv]
  · simp [mergeStat, hv]

theorem extract_listing_timeout_eq (pg : Page) (url ts : String) (year : Int)
    (h : pg.goto = Except.error PwError.timeout) :
    extract_listing pg url ts year = Except.ok (initRecord url ts) := by
  unfold extract_listing
  rw [h]

theorem click_more_buttons_ok (pg : Page)
    (hb : ∀ l ∈ showMoreLabels, ∃ n, pg.buttonCount l = .ok n) :
    click_more_buttons pg = .ok () := by
  obtain ⟨k1, h1⟩ := hb "Lire la suite" (by simp [showMoreLabels])
  obtain ⟨k2, h2⟩ := hb "Afficher plus" (by simp [showMoreLabels])
  obtain ⟨k3, h3⟩ := hb "En savoir plus" (by simp [showMoreLabels])
  simp [click_more_buttons, showMoreLabels, clickLabels, h1, h2, h3]

theorem extract_listing_ok (pg : Page) (url ts : String) (year : Int)
    (hg : pg.goto = .ok ())
    (hb : ∀ l ∈ showMoreLabels, ∃ n, pg.buttonCount l = .ok n)
    (ht : ∃ t, pg.pageTitle = .ok t)
    (hs1 : ∃ n, pg.sectionHoteCount = .ok n)
    (hs2 : ∃ n, pg.sectionVotreHoteCount = .ok n) :
    extract_listing pg url ts year = .ok (recordOf pg url ts year) := by
  obtain ⟨t, ht⟩ := ht
  obtain ⟨n1, hn1⟩ := hs1
  obtain ⟨n2, hn2⟩ := hs2
  have hclick := click_more_buttons_ok pg hb
  unfold extract_listing
  by_cases h0 : safe_inner_text pg.h1Count pg.h1Text = "" <;>
    by_cases hz : n1 = 0 <;>
    simp [hg, hclick, ht, hn1, hn2, h0, hz, recordOf, titleValOf, statsOf,
      hostPairOf, secTriple, sectionSel, fromOk]

theorem extract_listing_ok_inv (pg : Page) (url ts : String) (year : Int)
    (r : ListingRecord) (hg : pg.goto = .ok ())
    (hex : extract_listing pg url ts year = .ok r) :
    r = recordOf pg url ts year := by
  unfold extract_listing at hex
  cases hc : click_more_buttons pg with
  | error e => simp [hg, hc] at hex
  | ok v =>
    by_cases h0 : safe_inner_text pg.h1Count pg.h1Text = ""
    · cases hpt : pg.pageTitle with
      | error e => simp [hg, hc, h0, hpt] at hex
      | ok t =>
        cases hsc : pg.sectionHoteCount with
        | error e => simp [hg, hc, h0, hpt, hsc] at hex
        | ok n1 =>
          by_cases hz : n1 = 0
          · cases hsv : pg.sectionVotreHoteCount with
            | error e => simp [hg, hc, h0, hpt, hsc, hsv, hz] at hex
            | ok n2 =>
              simp [hg, hc, h0, hpt, hsc, hsv, hz] at hex
              rw [← hex]
              simp [recordOf, titleValOf, statsOf, hostPairOf, secTriple, sectionSel,
                fromOk, h0, hpt, hsc, hsv, hz]
          · simp [hg, hc, h0, hpt, hsc, hz] at hex
            rw [← hex]
            simp [recordOf, titleValOf, statsOf, hostPairOf, secTriple, sectionSel,
              fromOk, h0, hpt, hsc, hz]
    · cases hsc : pg.sectionHoteCount with
      | error e => simp [hg, hc, h0, hsc] at hex
      | ok n1 =>
        by_cases hz : n1 = 0
        · cases hsv : pg.sectionVotreHoteCount with
          | error e => simp [hg, hc, h0, hsc, hsv, hz] at hex
          | ok n2 =>
            simp [hg, hc, h0, hsc, hsv, hz] at hex
            rw [← hex]
            simp [recordOf, titleValOf, statsOf, hostPairOf, secTriple, sectionSel,
              fromOk, h0, hsc, hsv, hz]
        · simp [hg, hc, h0, hsc, hz] at hex
          rw [← hex]
          simp [recordOf, titleValOf, statsOf, hostPairOf, secTriple, sectionSel,
            fromOk, h0, hsc, hz]

theorem hostPairOf_skip (pg : Page) (hn : (secTriple pg).2.1 ≠ "")
    (hu : (secTriple pg).2.2 ≠ "") :
    hostPairOf pg = ((secTriple pg).2.1, (secTriple pg).2.2) := by
  simp only [hostPairOf]
  rw [if_neg (fun h => h.elim hn hu)]

theorem hostPairOf_fallback_ok (pg : Page) (hOpt : Option String) (t : String)
    (hdisj : (secTriple pg).2.1 = "" ∨ (secTriple pg).2.2 = "")
    (hgh : pg.globalLinkHref = .ok hOpt) (hgt : pg.globalLinkText = .ok t) :
    hostPairOf pg =
      (if t ≠ "" then pyStrip t else (secTriple pg).2.1,
       hOpt.elim (secTriple pg).2.2
         (fun h => if h ≠ "" then stripQuery h else (secTriple pg).2.2)) := by
  simp only [hostPairOf, hgh, hgt]
  rw [if_pos hdisj]
  cases hOpt <;> rfl

theorem hostPairOf_fallback_err (pg : Page) (e : PwError)
    (hdisj : (secTriple pg).2.1 = "" ∨ (secTriple pg).2.2 = "")
    (hgh : pg.globalLinkHref = .error e) :
    hostPairOf pg = ((secTriple pg).2.1, (secTriple pg).2.2) := by
  simp only [hostPairOf, hgh]
  rw [if_pos hdisj]

/-! ## C1: failure propagation of the extraction stage -/

/-- C1 is falsified on the code: a navigation failure other than a
timeout (`page.goto` raising a non-`PlaywrightTimeoutError` error, e.g.
a DNS failure) is not caught by `extract_listing`, so the record is
aborted and the error propagates through the worker and
`asyncio.gather` — no row is appended for the URL. -/
theorem extraction_propagates_counterexample :
    extract_listing pgGotoOther "https://a/rooms/1" "ts" 2025 =
      Except.error PwError.other ∧
    runExtractionStage (fun _ => pgGotoOther) ["https://a/rooms/1"] "ts" 2025 =
      Except.error PwError.other := by
  exact ⟨rfl, rfl⟩

/-- C1 (corrected): provided navigation fails only by timeout (if at
all) and the unguarded calls (`buttons.count()`, `page.title()`, the
host-section `count()`s) succeed, every ListingURL yields exactly one
ListingRecord carrying that URL, failures of all guarded calls degrade
only the affected fields, and the worker appends exactly one row per
URL (`rows.length = urls.length`). -/
theorem extraction_one_row_amended (pages : String → Page) (urls : List String)
    (ts : String) (year : Int)
    (h : ∀ u ∈ urls, NoUnguardedFailure (pages u)) :
    ∃ rows, runExtractionStage pages urls ts year = .ok rows ∧
      rows.length = urls.length ∧
      ∀ (i : Nat) (hi : i < rows.length) (hu : i < urls.length),
        (rows.get ⟨i, hi⟩).listing_url = urls.get ⟨i, hu⟩ := by
  induction urls with
  | nil => exact ⟨[], rfl, rfl, fun i hi _ => absurd hi (by simp)⟩
  | cons u us ih =>
    have hu0 : NoUnguardedFailure (pages u) := h u (List.mem_cons_self u us)
    have hrest : ∀ v ∈ us, NoUnguardedFailure (pages v) :=
      fun v hv => h v (List.mem_cons_of_mem u hv)
    obtain ⟨hgoto, hb, ht, h1, h2⟩ := hu0
    obtain ⟨rows, hrows, hlen, hproj⟩ := ih hrest
    have hone : ∃ r, extract_listing (pages u) u ts year = .ok r ∧ r.listing_url = u := by
      cases hgo : (pages u).goto with
      | error e =>
        cases e with
        | timeout => exact ⟨initRecord u ts, extract_listing_timeout_eq _ u ts year hgo, rfl⟩
        | other => exact absurd hgo hgoto
      | ok v =>
        cases v
        exact ⟨recordOf (pages u) u ts year,
          extract_listing_ok (pages u) u ts year hgo hb ht h1 h2, rfl⟩
    obtain ⟨r, hr, hrurl⟩ := hone
    refine ⟨r :: rows, ?_, by simp [hlen], ?_⟩
    · simp [runExtractionStage, hr, hrows]
    · intro i hi hu
      cases i with
      | zero => simpa using hrurl
      | succ j =>
        have := hproj j (by simpa using hi) (by simpa using hu)
        simpa using this

theorem extraction_one_row_amended_witness :
    ∃ rows, runExtractionStage (fun _ => pgOk) ["https://a/rooms/1"] "ts" 2025 =
      .ok rows ∧ rows.length = 1 := by
  have h := extraction_one_row_amended (fun _ => pgOk) ["https://a/rooms/1"] "ts" 2025
    (by
      intro v _
      refine ⟨by simp [pgOk], fun l _ => ⟨0, rfl⟩, ⟨"Titre", rfl⟩, ⟨1, rfl⟩, ⟨0, rfl⟩⟩)
  obtain ⟨rows, hr1, hr2, _⟩ := h
  exact ⟨rows, hr1, by simpa using hr2⟩

/-! ## C7: the whole-page host fallback -/

/-- C7 is falsified on the code: when the host section yields a host
URL but no host name, the fallback fires (its guard is `or`, not
per-field) and its assignments overwrite *both* fields — here the
section-scoped host URL `https://a/users/1` is replaced by the
whole-page anchor's `https://a/users/2`. -/
theorem host_fallback_overwrite_counterexample :
    (secTriple pgOverwrite).2.2 = "https://a/users/1" ∧
    (secTriple pgOverwrite).2.1 = "" ∧
    extract_listing pgOverwrite "https://a/rooms/9" "ts" 2025 =
      .ok ⟨"https://a/rooms/9", "Studio", "", "https://a/users/2", "Bob",
           "", "", "", "ts"⟩ := by
  exact ⟨by decide, by decide, by decide⟩

/-- C7 (corrected): the fallback is skipped — and the section values
kept — only when *both* section-extracted fields are non-empty.  When
either is empty and both fallback reads succeed, a non-empty href
overwrites `host_url` and a non-empty text overwrites `host_name`,
even if the section had filled that field; if the fallback reads fail,
the section values are kept. -/
theorem host_fallback_amended (pg : Page) (url ts : String) (year : Int)
    (r : ListingRecord) (hg : pg.goto = .ok ())
    (hex : extract_listing pg url ts year = .ok r) :
    ((secTriple pg).2.1 ≠ "" → (secTriple pg).2.2 ≠ "" →
      r.host_name = (secTriple pg).2.1 ∧ r.host_url = (secTriple pg).2.2) ∧
    (∀ h t, ((secTriple pg).2.1 = "" ∨ (secTriple pg).2.2 = "") →
      pg.globalLinkHref = .ok (some h) → h ≠ "" → pg.globalLinkText = .ok t →
      t ≠ "" → r.host_name = pyStrip t ∧ r.host_url = stripQuery h) ∧
    (∀ e, ((secTriple pg).2.1 = "" ∨ (secTriple pg).2.2 = "") →
      pg.globalLinkHref = .error e →
      r.host_name = (secTriple pg).2.1 ∧ r.host_url = (secTriple pg).2.2) := by
  have hr := extract_listing_ok_inv pg url ts year r hg hex
  subst hr
  refine ⟨?_, ?_, ?_⟩
  · intro hn hu
    simp [recordOf, hostPairOf_skip pg hn hu]
  · intro h t hdisj hgh hne hgt htne
    simp [recordOf, hostPairOf_fallback_ok pg (some h) t hdisj hgh hgt, hne, htne]
  · intro e hdisj hgh
    simp [recordOf, hostPairOf_fallback_err pg e hdisj hgh]

theorem host_fallback_amended_witness :
    (⟨"https://a/rooms/9", "Studio", "", "https://a/users/2", "Bob",
      "", "", "", "ts"⟩ : ListingRecord).host_name = pyStrip "Bob" ∧
    (⟨"https://a/rooms/9", "Studio", "", "https://a/users/2", "Bob",
      "", "", "", "ts"⟩ : ListingRecord).host_url =
      stripQuery "https://a/users/2?y" := by
  have h := host_fallback_amended pgOverwrite "https://a/rooms/9" "ts" 2025
    ⟨"https://a/rooms/9", "Studio", "", "https://a/users/2", "Bob", "", "", "", "ts"⟩
    rfl (by decide)
  exact h.2.1 "https://a/users/2?y" "Bob" (by decide) rfl (by decide) rfl (by decide)

/-! ## C10: scoping of the host-statistics text -/

/-- C10: when a host section is located — through either label, `Hôte`
or the `Votre hôte` fallback, as captured by `sectionSel` — and its text
reads back non-empty, the three host statistics are computed from that
section text alone (`host_text or body_text` in the script chooses
`host_text`); the whole-page text is used only when no section is found
by either label, the section text read fails, or the text is empty.  A
statistics pattern present only outside the section therefore yields an
empty field in the section case, since each stat field equals the
corresponding field of `parse_host_stats` applied to the chosen text
only. -/
theorem stats_scoping_spec (pg : Page) (url ts : String) (year : Int)
    (r : ListingRecord) (hg : pg.goto = .ok ())
    (hex : extract_listing pg url ts year = .ok r) :
    (∀ n s, sectionSel pg = .ok n → 0 < n →
      pg.hostSectionText = .ok s → s ≠ "" →
      r.host_rating = (parse_host_stats s year).host_rating ∧
      r.host_years = (parse_host_stats s year).host_years ∧
      r.host_reviews_count = (parse_host_stats s year).host_reviews_count) ∧
    (∀ body, sectionSel pg = .ok 0 → pg.bodyText = .ok body →
      r.host_rating = (parse_host_stats body year).host_rating ∧
      r.host_years = (parse_host_stats body year).host_years ∧
      r.host_reviews_count = (parse_host_stats body year).host_reviews_count) ∧
    (∀ n e body, sectionSel pg = .ok n → 0 < n →
      pg.hostSectionText = .error e → pg.bodyText = .ok body →
      r.host_rating = (parse_host_stats body year).host_rating ∧
      r.host_years = (parse_host_stats body year).host_years ∧
      r.host_reviews_count = (parse_host_stats body year).host_reviews_count) ∧
    (∀ n body, sectionSel pg = .ok n → 0 < n →
      pg.hostSectionText = .ok "" → pg.bodyText = .ok body →
      r.host_rating = (parse_host_stats body year).host_rating ∧
      r.host_years = (parse_host_stats body year).host_years ∧
      r.host_reviews_count = (parse_host_stats body year).host_reviews_count) := by
  have hr := extract_listing_ok_inv pg url ts year r hg hex
  subst hr
  refine ⟨?_, ?_, ?_, ?_⟩
  · intro n s hsel hn hst hsne
    simp [recordOf, mergeStat_empty, statsOf, secTriple, fromOk,
      hsel, hst, hn, hsne]
  · intro body hsel hbody
    simp [recordOf, mergeStat_empty, statsOf, secTriple, fromOk,
      hsel, hbody]
  · intro n e body hsel hn hst hbody
    simp [recordOf, mergeStat_empty, statsOf, secTriple, fromOk,
      hsel, hst, hn, hbody]
  · intro n body hsel hn hst hbody
    simp [recordOf, mergeStat_empty, statsOf, secTriple, fromOk,
      hsel, hst, hn, hbody]

theorem stats_scoping_spec_witness :
    (⟨"https://a/rooms/1", "Joli studio", "BUS-MAG-42KDF", "https://a/users/1",
      "Alice", "4.95", "10", "1378", "ts"⟩ : ListingRecord).host_rating =
      (parse_host_stats
        "Votre hôte Alice. 4,95 sur 5. 1 378 commentaires. Hôte depuis 2015"
        2025).host_rating ∧
    (⟨"https://a/rooms/7", "Studio", "", "https://a/users/1", "Alice",
      "4.5", "", "", "ts"⟩ : ListingRecord).host_rating =
      (parse_host_stats "Votre hôte. 4,5 sur 5" 2025).host_rating := by
  refine ⟨?_, ?_⟩
  · have h := stats_scoping_spec pgOk "https://a/rooms/1" "ts" 2025
      ⟨"https://a/rooms/1", "Joli studio", "BUS-MAG-42KDF", "https://a/users/1",
       "Alice", "4.95", "10", "1378", "ts"⟩ rfl (by decide)
    exact (h.1 1 "Votre hôte Alice. 4,95 sur 5. 1 378 commentaires. Hôte depuis 2015"
      (by decide) (by decide) rfl (by decide)).1
  · have h := stats_scoping_spec pgVotre "https://a/rooms/7" "ts" 2025
      ⟨"https://a/rooms/7", "Studio", "", "https://a/users/1", "Alice",
       "4.5", "", "", "ts"⟩ rfl (by decide)
    exact (h.1 1 "Votre hôte. 4,5 sur 5" (by decide) (by decide) rfl (by decide)).1

/-! ## The host-statistics parser (C2) -/

theorem toDigitsCore_ne_nil : ∀ (fuel n : Nat) (acc : List Char),
    1 ≤ fuel ∨ acc ≠ [] → Nat.toDigitsCore 10 fuel n acc ≠ [] := by
  intro fuel
  induction fuel with
  | zero =>
    intro n acc h
    rcases h with h | h
    · omega
    · exact h
  | succ f ih =>
    intro n acc h
    simp only [Nat.toDigitsCore]
    split
    · simp
    · exact ih (n / 10) _ (Or.inr (by simp))

theorem natToString_ne_empty (n : Nat) : toString n ≠ "" := by
  show Nat.repr n ≠ ""
  have hne : Nat.toDigits 10 n ≠ [] :=
    toDigitsCore_ne_nil (n + 1) n [] (Or.inl (by omega))
  cases hd : Nat.toDigits 10 n with
  | nil => exact absurd hd hne
  | cons c l =>
    have : Nat.repr n = String.mk (Nat.toDigits 10 n) := rfl
    rw [this, hd]
    exact mk_ne_empty (by simp)

theorem intToString_nonneg (k : Int) (h : 0 ≤ k) :
    (∃ n : Nat, toString k = toString n) ∧ toString k ≠ "" := by
  obtain ⟨n, rfl⟩ := Int.eq_ofNat_of_zero_le h
  have heq : toString ((n : Nat) : Int) = toString n := rfl
  exact ⟨⟨n, heq⟩, by rw [heq]; exact natToString_ne_empty n⟩

theorem forall_mem_of_all {p : Char → Bool} {l : List Char} (h : l.all p = true) :
    ∀ c ∈ l, p c = true :=
  fun c hc => List.all_eq_true.mp h c hc

/-- C2: `parse_host_stats` is a total function of the text and the current
year and is the product of three independent sub-extractions. The rating
field is empty iff `\d+(?:[.,]\d+)?\s*sur\s*5` occurs nowhere, and
otherwise is the leftmost occurrence's capture group with `,` replaced by
`.`. The review-count field is empty iff `(\d[\d\s ]*)\s+commentaire`
(ignorecase) occurs nowhere, and otherwise is the leftmost occurrence's
group with every non-digit stripped. The tenure field is empty iff
`H[oô]te depuis\s+(\d{4})` (ignorecase) occurs nowhere, otherwise it is
`max 0 (Y - year)` for the leftmost captured year, and whenever non-empty
it denotes a natural number (never negative). -/
theorem parse_host_stats_spec (text : String) (Y : Int) :
    parse_host_stats text Y =
      ⟨ratingField text, reviewsField text, yearsField text Y⟩ ∧
    (ratingField text = "" ↔ ¬∃ i g, RatingOccAt text.toList i g) ∧
    (∀ i g, RatingOccAt text.toList i g →
      (∀ j g', j < i → ¬RatingOccAt text.toList j g') →
      ratingField text = String.mk (normComma g)) ∧
    (reviewsField text = "" ↔ ¬∃ i g, ReviewsOccAt text.toList i g) ∧
    (∀ i g, ReviewsOccAt text.toList i g →
      (∀ j g', j < i → ¬ReviewsOccAt text.toList j g') →
      reviewsField text = String.mk (g.filter isDigitC)) ∧
    (yearsField text Y = "" ↔ ¬∃ i y, TenureOccAt text.toList i y) ∧
    (∀ i y, TenureOccAt text.toList i y →
      (∀ j y', j < i → ¬TenureOccAt text.toList j y') →
      yearsField text Y = toString (max 0 (Y - (y : Int)))) ∧
    (yearsField text Y ≠ "" → ∃ n : Nat, yearsField text Y = toString n) := by
  have hratN : ∀ ds : List Char, matchRatingAt ds = none ↔ ∀ g, ¬RatingOcc0 ds g := by
    intro ds
    constructor
    · intro h g hocc
      rw [matchRatingAt_eq_some_iff.mpr hocc] at h
      cases h
    · intro h
      cases hm : matchRatingAt ds with
      | none => rfl
      | some g => exact absurd (matchRatingAt_eq_some_iff.mp hm) (h g)
  have hrevN : ∀ ds : List Char, matchReviewsAt ds = none ↔ ∀ g, ¬ReviewsOcc0 ds g := by
    intro ds
    constructor
    · intro h g hocc
      obtain ⟨g0, hg0⟩ := matchReviewsAt_complete hocc
      rw [hg0] at h
      cases h
    · intro h
      cases hm : matchReviewsAt ds with
      | none => rfl
      | some g => exact absurd (matchReviewsAt_sound hm) (h g)
  have htenN : ∀ ds : List Char, matchTenureAt ds = none ↔ ∀ y, ¬TenureOcc0 ds y := by
    intro ds
    constructor
    · intro h y hocc
      rw [matchTenureAt_eq_some_iff.mpr hocc] at h
      cases h
    · intro h
      cases hm : matchTenureAt ds with
      | none => rfl
      | some y => exact absurd (matchTenureAt_eq_some_iff.mp hm) (h y)
  refine ⟨rfl, ?_, ?_, ?_, ?_, ?_, ?_, ?_⟩
  · unfold ratingField
    cases hs : scan matchRatingAt text.toList with
    | none =>
      constructor
      · rintro - ⟨i, g, hocc⟩
        have hn := (scan_eq_none_iff matchRatingAt matchRatingAt_nil text.toList).mp hs i
        exact (hratN _).mp hn g hocc
      · intro _; rfl
    | some g =>
      obtain ⟨i, hi, -⟩ :=
        (scan_eq_some_iff matchRatingAt matchRatingAt_nil text.toList g).mp hs
      have hocc := matchRatingAt_eq_some_iff.mp hi
      obtain ⟨ws1, ws2, rest, -, ⟨d1, tl, hgd, hd1ne, -, -⟩, -, -⟩ := hocc
      have hgne : g ≠ [] := by
        rw [hgd]
        cases d1 with
        | nil => exact absurd rfl hd1ne
        | cons e es => simp
      constructor
      · intro hemp
        exact absurd hemp (mk_ne_empty (by simp [normComma, hgne]))
      · intro hno
        exact absurd ⟨i, g, matchRatingAt_eq_some_iff.mp hi⟩ hno
  · intro i g hocc hmin
    have hsome : scan matchRatingAt text.toList = some g := by
      rw [scan_eq_some_iff matchRatingAt matchRatingAt_nil]
      refine ⟨i, matchRatingAt_eq_some_iff.mpr hocc, ?_⟩
      intro j hj
      rw [hratN]
      intro g' hocc'
      exact hmin j g' hj hocc'
    unfold ratingField
    rw [hsome]
  · unfold reviewsField
    cases hs : scan matchReviewsAt text.toList with
    | none =>
      constructor
      · rintro - ⟨i, g, hocc⟩
        have hn := (scan_eq_none_iff matchReviewsAt matchReviewsAt_nil text.toList).mp hs i
        exact (hrevN _).mp hn g hocc
      · intro _; rfl
    | some g =>
      obtain ⟨i, hi, -⟩ :=
        (scan_eq_some_iff matchReviewsAt matchReviewsAt_nil text.toList g).mp hs
      have hocc := matchReviewsAt_sound hi
      obtain ⟨sp, rest, -, ⟨d, gt, hgd, hd⟩, -, -, -, -⟩ := hocc
      have hfne : g.filter isDigitC ≠ [] := by
        rw [hgd]
        simp [List.filter_cons, hd]
      constructor
      · intro hemp
        exact absurd hemp (mk_ne_empty hfne)
      · intro hno
        exact absurd ⟨i, g, matchReviewsAt_sound hi⟩ hno
  · intro i g hocc hmin
    obtain ⟨g0, hg0⟩ := matchReviewsAt_complete hocc
    have hsome : scan matchReviewsAt text.toList = some g0 := by
      rw [scan_eq_some_iff matchReviewsAt matchReviewsAt_nil]
      refine ⟨i, hg0, ?_⟩
      intro j hj
      rw [hrevN]
      intro g' hocc'
      exact hmin j g' hj hocc'
    unfold reviewsField
    rw [hsome]
    have h1 := reviewsOcc0_filter (matchReviewsAt_sound hg0)
    have h2 := reviewsOcc0_filter hocc
    show String.mk (g0.filter isDigitC) = String.mk (g.filter isDigitC)
    rw [h1, ← h2]
  · unfold yearsField
    cases hs : scan matchTenureAt text.toList with
    | none =>
      constructor
      · rintro - ⟨i, y, hocc⟩
        have hn := (scan_eq_none_iff matchTenureAt matchTenureAt_nil text.toList).mp hs i
        exact (htenN _).mp hn y hocc
      · intro _; rfl
    | some y =>
      obtain ⟨i, hi, -⟩ :=
        (scan_eq_some_iff matchTenureAt matchTenureAt_nil text.toList y).mp hs
      constructor
      · intro hemp
        exact absurd hemp (intToString_nonneg _ (le_max_left 0 _)).2
      · intro hno
        exact absurd ⟨i, y, matchTenureAt_eq_some_iff.mp hi⟩ hno
  · intro i y hocc hmin
    have hsome : scan matchTenureAt text.toList = some y := by
      rw [scan_eq_some_iff matchTenureAt matchTenureAt_nil]
      refine ⟨i, matchTenureAt_eq_some_iff.mpr hocc, ?_⟩
      intro j hj
      rw [htenN]
      intro y' hocc'
      exact hmin j y' hj hocc'
    unfold yearsField
    rw [hsome]
  · unfold yearsField
    cases hs : scan matchTenureAt text.toList with
    | none =>
      intro hne
      exact absurd rfl hne
    | some y =>
      intro _
      obtain ⟨⟨n, hn⟩, -⟩ := intToString_nonneg (max 0 (Y - (y : Int))) (le_max_left 0 _)
      exact ⟨n, hn⟩

theorem parse_host_stats_spec_witness :
    ratingField "4,95 sur 5" = "4.95" ∧
    reviewsField "1 378 commentaires" = "1378" ∧
    yearsField "Hôte depuis 2015" 2025 = "10" ∧
    yearsField "Hôte depuis 2030" 2025 = "0" := by
  refine ⟨?_, ?_, ?_, ?_⟩
  · have hocc : RatingOccAt "4,95 sur 5".toList 0 ['4', ',', '9', '5'] := by
      refine ⟨[' '], [' '], [], by decide,
        ⟨['4'], [',', '9', '5'], by decide, by decide, forall_mem_of_all (by decide),
          Or.inr ⟨',', ['9', '5'], by decide, Or.inr rfl, by decide,
            forall_mem_of_all (by decide)⟩⟩,
        forall_mem_of_all (by decide), forall_mem_of_all (by decide)⟩
    have h := (parse_host_stats_spec "4,95 sur 5" 2025).2.2.1 0 ['4', ',', '9', '5']
      hocc (fun j g' hj => absurd hj (Nat.not_lt_zero j))
    exact h.trans (by decide)
  · have hocc : ReviewsOccAt "1 378 commentaires".toList 0 ['1', ' ', '3', '7', '8'] := by
      refine ⟨[' '], "commentaires".toList, by decide,
        ⟨'1', [' ', '3', '7', '8'], rfl, by decide⟩,
        forall_mem_of_all (by decide), by decide,
        forall_mem_of_all (by decide), by decide⟩
    have h := (parse_host_stats_spec "1 378 commentaires" 2025).2.2.2.2.1 0
      ['1', ' ', '3', '7', '8'] hocc (fun j g' hj => absurd hj (Nat.not_lt_zero j))
    exact h.trans (by decide)
  · have hocc : TenureOccAt "Hôte depuis 2015".toList 0 2015 := by
      refine ⟨'H', 'ô', 't', 'e', "depuis".toList, [' '], ['2', '0', '1', '5'], [],
        by decide, by decide, Or.inr (Or.inr (Or.inl rfl)), by decide, by decide,
        by decide, by decide, by decide, forall_mem_of_all (by decide),
        by decide, forall_mem_of_all (by decide), by decide⟩
    have h := (parse_host_stats_spec "Hôte depuis 2015" 2025).2.2.2.2.2.2.1 0 2015
      hocc (fun j y' hj => absurd hj (Nat.not_lt_zero j))
    exact h.trans (by decide)
  · have hocc : TenureOccAt "Hôte depuis 2030".toList 0 2030 := by
      refine ⟨'H', 'ô', 't', 'e', "depuis".toList, [' '], ['2', '0', '3', '0'], [],
        by decide, by decide, Or.inr (Or.inr (Or.inl rfl)), by decide, by decide,
        by decide, by decide, by decide, forall_mem_of_all (by decide),
        by decide, forall_mem_of_all (by decide), by decide⟩
    have h := (parse_host_stats_spec "Hôte depuis 2030" 2025).2.2.2.2.2.2.1 0 2030
      hocc (fun j y' hj => absurd hj (Nat.not_lt_zero j))
    exact h.trans (by decide)

end Scraper
